import Mathlib

/-!
Multi-scalar multiplication (`MSM::run`, src/c/msm.cpp)

Shallow embedding of `MSM<Curve, BaseField>::run` and proofs about it.

Modelling conventions.

* The curve object `g` is an arbitrary commutative group `G` (`AddCommGroup G`):
  `g.zero()` is `0`, `g.add` is `+`, `g.sub` is `-`, `g.dbl(r, r)` is `r + r`,
  `g.copy` is assignment.  `Point` and `PointAffine` are both `G`.
* The three heap arrays of `run` (`bucketMatrix`, `chunks`, `slicedScalars`) are
  bounded arrays `Arr`; an access outside the allocated size makes `run` return
  `none`.  The content of a freshly allocated array is arbitrary and is a
  parameter (`Env.heapBuckets`, `Env.heapChunks`, `Env.heapSliced`).
* The caller's buffers `_bases` and `_scalars` are indexing functions:
  `_bases i` is the `i`-th point, `_scalars i` is the integer encoded by the
  `i`-th scalar, of which only the low `scalarSize` bits exist.
* In the digit slicer the machine integers are explicit: `int bucketIndex` is a
  32-bit two's complement integer (`toInt32`), its comparison with and its
  subtraction of the `uint64_t` `nBuckets` are done modulo `2^64` (`toUInt64`),
  and the store into the `int16_t` digit matrix narrows (`toInt16`).  Loop
  counters and array sizes are unbounded naturals (fewer than `2^31` points,
  chunks and buckets).
* The two `#pragma omp parallel for` loops are run in index order; the worker
  that executes iteration `j` of the chunk loop is `Env.ompThreadNum j`.
-/

namespace MSM

/-! ## Bounded arrays -/

/-- A heap array: its allocated size and its content. -/
structure Arr (α : Type) where
  size : Nat
  data : Nat → α

/-- Read `a[i]`; `none` when `i` is outside the allocation. -/
def Arr.load {α : Type} (a : Arr α) (i : Nat) : Option α :=
  if i < a.size then some (a.data i) else none

/-- Write `a[i] = v`; `none` when `i` is outside the allocation. -/
def Arr.store {α : Type} (a : Arr α) (i : Nat) (v : α) : Option (Arr α) :=
  if i < a.size then some ⟨a.size, Function.update a.data i v⟩ else none

/-- Conversion of an `int` to `int16_t` (two's complement wrap-around), as done by the
assignment `slicedScalars[i*nChunks + j] = bucketIndex`. -/
def toInt16 (x : Int) : Int := (x + 32768) % 65536 - 32768

/-- Conversion to the 32-bit `int` (two's complement wrap-around). -/
def toInt32 (x : Int) : Int := (x + 2147483648) % 4294967296 - 2147483648

/-- Conversion to `uint64_t`, as applied to an `int` that meets a `uint64_t` operand. -/
def toUInt64 (x : Int) : Int := x % 18446744073709551616

/-! ## Members of `MSM` declared in msm.hpp -/

/-- Modelled from the spec: `calcChunkCount` (declared in msm.hpp, whose text is not among the sources);
`nChunks = ceil(scalarSize / w)`. -/
def calcChunkCount (scalarSize bitsPerChunk : Nat) : Nat :=
  (scalarSize + bitsPerChunk - 1) / bitsPerChunk

/-- Modelled from the spec: `calcBucketCount` (declared in msm.hpp, whose text is not among the sources);
`nBuckets = 2^(w-1)`. -/
def calcBucketCount (bitsPerChunk : Nat) : Nat := 2 ^ (bitsPerChunk - 1)

/-- Modelled from the spec: `getBucketIndex` (declared in msm.hpp, whose text is not among the sources); the `w`-bit window
starting at bit `j*w` of scalar `i`, a scalar being an unsigned integer of `scalarSize`
bits. -/
def getBucketIndex (scalars : Nat → Nat) (scalarSize bitsPerChunk : Nat) (i j : Nat) : Nat :=
  (scalars i % 2 ^ scalarSize) / 2 ^ (j * bitsPerChunk) % 2 ^ bitsPerChunk

section Group

variable {G : Type} [AddCommGroup G]

/-- Modelled from the spec: `g.mulByScalar` (curve arithmetic, not among the sources); the
straightforward double-and-add over the `scalarSize` bits of the scalar, most significant
bit first. -/
def mulByScalar (base : G) (scalar : Nat) (scalarSize : Nat) : G :=
  (List.range scalarSize).reverse.foldl
    (fun r b => if scalar / 2 ^ b % 2 = 1 then (r + r) + base else r + r) 0

/-- Modelled from the spec: the naive reference `Σ_i scalar_i · point_i`, each product by
double-and-add (`mulByScalar`). -/
def naiveMSM (bases : Nat → G) (scalars : Nat → Nat) (scalarSize n : Nat) : G :=
  (List.range n).foldl (fun acc i => acc + mulByScalar (bases i) (scalars i) scalarSize) 0

/-! ## The environment of a call -/

/-- What `run` takes from its build and run-time environment. -/
structure Env (G : Type) where
  /-- whether `_OPENMP` is defined -/
  openmp : Bool
  /-- value of `omp_get_max_threads()` -/
  ompMaxThreads : Nat
  /-- value of `omp_get_thread_num()` in iteration `j` of the chunk loop -/
  ompThreadNum : Nat → Nat
  /-- the window width: `MSM_BITS_PER_CHUNK`, or what `calcBitsPerChunk` returns -/
  bitsPerChunk : Nat
  /-- content of the freshly allocated `bucketMatrix` -/
  heapBuckets : Nat → G
  /-- content of the freshly allocated `chunks` -/
  heapChunks : Nat → G
  /-- content of the freshly allocated `slicedScalars` -/
  heapSliced : Nat → Int

/-! ## Digit slicer (lines 52-68) -/

/-- Line 57, `int bucketIndex = getBucketIndex(i, j) + carry`: the sum as a 32-bit `int`. -/
def rawBucketIndex (window : Nat) (carry : Int) : Int := toInt32 ((window : Int) + carry)

/-- Body of the inner slicing loop (lines 57-66) for point `i` and chunk `j`; the state is
`slicedScalars` and `carry`. -/
def sliceStep (scalars : Nat → Nat) (scalarSize bitsPerChunk nChunks nBuckets i : Nat)
    (st : Arr Int × Int) (j : Nat) : Option (Arr Int × Int) :=
  let bucketIndex : Int :=
    rawBucketIndex (getBucketIndex scalars scalarSize bitsPerChunk i j) st.2
  if toUInt64 bucketIndex ≥ (nBuckets : Int) then
    (st.1.store (i * nChunks + j)
      (toInt16 (toInt32 (toUInt64 (toUInt64 bucketIndex - (nBuckets : Int) * 2))))).map
      (fun s => (s, 1))
  else
    (st.1.store (i * nChunks + j) (toInt16 bucketIndex)).map (fun s => (s, 0))

/-- Body of the outer slicing loop (lines 54-67) for point `i`. -/
def slicePoint (scalars : Nat → Nat) (scalarSize bitsPerChunk nChunks nBuckets : Nat)
    (slicedScalars : Arr Int) (i : Nat) : Option (Arr Int) :=
  ((List.range nChunks).foldlM
    (sliceStep scalars scalarSize bitsPerChunk nChunks nBuckets i) (slicedScalars, 0)).map
    Prod.fst

/-- The slicing loop (lines 53-68). -/
def sliceScalars (scalars : Nat → Nat) (scalarSize bitsPerChunk nChunks nBuckets nPoints : Nat)
    (slicedScalars : Arr Int) : Option (Arr Int) :=
  (List.range nPoints).foldlM
    (slicePoint scalars scalarSize bitsPerChunk nChunks nBuckets) slicedScalars

/-! ## Per-chunk work (lines 70-107) -/

/-- Bucket reset (lines 81-83) of the slot starting at offset `off` of the bucket matrix. -/
def resetBuckets (bucketMatrix : Arr G) (off nBuckets : Nat) : Option (Arr G) :=
  (List.range nBuckets).foldlM (fun m i => m.store (off + i) 0) bucketMatrix

/-- Body of the accumulation loop (lines 86-93) for point `i`. -/
def accumulateStep (bases : Nat → G) (slicedScalars : Arr Int) (nChunks j off : Nat)
    (m : Arr G) (i : Nat) : Option (Arr G) :=
  (slicedScalars.load (i * nChunks + j)).bind fun bucketIndex =>
    if bucketIndex > 0 then
      (m.load (off + (bucketIndex - 1).toNat)).bind fun b =>
        m.store (off + (bucketIndex - 1).toNat) (b + bases i)
    else if bucketIndex < 0 then
      (m.load (off + (-bucketIndex - 1).toNat)).bind fun b =>
        m.store (off + (-bucketIndex - 1).toNat) (b - bases i)
    else some m

/-- The accumulation loop (lines 85-94), visiting the point indices in the given order. -/
def accumulateIn (order : List Nat) (bases : Nat → G) (slicedScalars : Arr Int)
    (nChunks j off : Nat) (m : Arr G) : Option (Arr G) :=
  order.foldlM (accumulateStep bases slicedScalars nChunks j off) m

/-- The accumulation loop (lines 85-94) in the order of the source, `i = 0 .. nPoints-1`. -/
def accumulate (bases : Nat → G) (slicedScalars : Arr Int) (nChunks nPoints j off : Nat)
    (m : Arr G) : Option (Arr G) :=
  accumulateIn (List.range nPoints) bases slicedScalars nChunks j off m

/-- Bucket reducer (lines 96-104): the running double sum; returns `t`. -/
def reduceBuckets (m : Arr G) (off nBuckets : Nat) : Option G :=
  (m.load (off + (nBuckets - 1))).bind fun t =>
    ((List.range (nBuckets - 1)).reverse.foldlM
      (fun (st : G × G) i =>
        (m.load (off + i)).map fun b => (st.1 + (st.2 + b), st.2 + b)) (t, t)).map Prod.fst

/-- Body of the chunk loop (lines 72-106) for chunk `j`, run by worker `numThread`; returns
the bucket matrix it leaves and the chunk result `t`. -/
def chunkBody (bases : Nat → G) (slicedScalars : Arr Int) (nChunks nBuckets nPoints : Nat)
    (numThread j : Nat) (bucketMatrix : Arr G) : Option (Arr G × G) :=
  let off := numThread * nBuckets
  (resetBuckets bucketMatrix off nBuckets).bind fun m1 =>
    (accumulate bases slicedScalars nChunks nPoints j off m1).bind fun m2 =>
      (reduceBuckets m2 off nBuckets).map fun t => (m2, t)

/-- The chunk loop (lines 71-107); the state is `bucketMatrix` and `chunks`. -/
def chunkLoop (env : Env G) (bases : Nat → G) (slicedScalars : Arr Int)
    (nChunks nBuckets nPoints : Nat) (st : Arr G × Arr G) : Option (Arr G × Arr G) :=
  (List.range nChunks).foldlM
    (fun (st : Arr G × Arr G) j =>
      let numThread := if env.openmp then env.ompThreadNum j else 0
      (chunkBody bases slicedScalars nChunks nBuckets nPoints numThread j st.1).bind
        fun res => (st.2.store j res.2).map fun chunks => (res.1, chunks)) st

/-! ## Chunk combiner (lines 109-116) -/

/-- The `bitsPerChunk` doublings of lines 112-114. -/
def dblTimes (bitsPerChunk : Nat) (r : G) : G :=
  (List.range bitsPerChunk).foldl (fun r _ => r + r) r

/-- The final loop (lines 109-116). -/
def combineChunks (chunks : Arr G) (nChunks bitsPerChunk : Nat) : Option G :=
  (chunks.load (nChunks - 1)).bind fun r0 =>
    (List.range (nChunks - 1)).reverse.foldlM
      (fun r j => (chunks.load j).map fun c => dblTimes bitsPerChunk r + c) r0

/-! ## `MSM::run` -/

/-- The value of `nThreads` (lines 18-23). -/
def threadCount (env : Env G) (_nThreads : Nat) : Nat :=
  if env.openmp then (if _nThreads = 0 then env.ompMaxThreads else _nThreads) else 1

/-- The windowed pipeline of `run` (lines 43-116). -/
def runWindowed (env : Env G) (_bases : Nat → G) (_scalars : Nat → Nat)
    (_scalarSize nPoints nThreads : Nat) : Option G :=
  let nChunks := calcChunkCount _scalarSize env.bitsPerChunk
  let nBuckets := calcBucketCount env.bitsPerChunk
  let matrixSize := nThreads * nBuckets
  let nSlices := nChunks * nPoints
  let bucketMatrix : Arr G := ⟨matrixSize, env.heapBuckets⟩
  let chunks : Arr G := ⟨nChunks, env.heapChunks⟩
  let slicedScalars : Arr Int := ⟨nSlices, env.heapSliced⟩
  (sliceScalars _scalars _scalarSize env.bitsPerChunk nChunks nBuckets nPoints
      slicedScalars).bind fun sliced =>
    (chunkLoop env _bases sliced nChunks nBuckets nPoints (bucketMatrix, chunks)).bind
      fun st => combineChunks st.2 nChunks env.bitsPerChunk

/-- `MSM::run` (lines 9-117): the value written into `r`, or `none` when the run accesses
one of its arrays out of bounds. -/
def run (env : Env G) (_bases : Nat → G) (_scalars : Nat → Nat)
    (_scalarSize _n _nThreads : Nat) : Option G :=
  let nPoints := _n
  let nThreads := threadCount env _nThreads
  if nPoints = 0 then some 0
  else if nPoints = 1 then some (mulByScalar (_bases 0) (_scalars 0) _scalarSize)
  else runWindowed env _bases _scalars _scalarSize nPoints nThreads

/-! ## Quantities used to state what the loops compute -/

/-- What point `i` adds to position `p` of the bucket matrix in chunk `j`. -/
def bucketDelta (bases : Nat → G) (slicedScalars : Arr Int) (nChunks j off : Nat)
    (i p : Nat) : G :=
  if 0 < slicedScalars.data (i * nChunks + j)
      ∧ p = off + (slicedScalars.data (i * nChunks + j) - 1).toNat then bases i
  else if slicedScalars.data (i * nChunks + j) < 0
      ∧ p = off + (-slicedScalars.data (i * nChunks + j) - 1).toNat then -bases i
  else 0

/-- Point `i` is accumulated without leaving the arrays: its digit is inside the digit
matrix and its bucket inside a bucket matrix of size `sz`. -/
def stepInBounds (slicedScalars : Arr Int) (nChunks j off sz i : Nat) : Prop :=
  i * nChunks + j < slicedScalars.size
    ∧ (0 < slicedScalars.data (i * nChunks + j) →
        off + (slicedScalars.data (i * nChunks + j) - 1).toNat < sz)
    ∧ (slicedScalars.data (i * nChunks + j) < 0 →
        off + (-slicedScalars.data (i * nChunks + j) - 1).toNat < sz)

instance stepInBoundsDecidable (slicedScalars : Arr Int) (nChunks j off sz i : Nat) :
    Decidable (stepInBounds slicedScalars nChunks j off sz i) := by
  unfold stepInBounds
  infer_instance

/-- What a point `P` with digit `d` adds to bucket `k`. -/
def digitDelta (d : Int) (k : Nat) (P : G) : G :=
  if 0 < d ∧ k = (d - 1).toNat then P
  else if d < 0 ∧ k = (-d - 1).toNat then -P
  else 0

/-- The weighted bucket sum of chunk `j`, from the digit column and the bases. -/
def chunkSum (bases : Nat → G) (digits : Nat → Int) (nBuckets nPoints : Nat) : G :=
  ∑ k ∈ Finset.range nBuckets,
    (k + 1) • ((List.range nPoints).map fun i => digitDelta (digits i) k (bases i)).sum

/-- The value of the variable `carry` when the inner slicing loop of scalar `i` reaches
chunk `j`. -/
def codeCarry (scalars : Nat → Nat) (scalarSize w nBuckets i : Nat) : Nat → Int
  | 0 => 0
  | j + 1 =>
    if toUInt64 (rawBucketIndex (getBucketIndex scalars scalarSize w i j)
        (codeCarry scalars scalarSize w nBuckets i j)) ≥ (nBuckets : Int) then 1 else 0

/-- The value of `bucketIndex` after line 57 for chunk `j` of scalar `i`. -/
def codeRaw (scalars : Nat → Nat) (scalarSize w nBuckets i j : Nat) : Int :=
  rawBucketIndex (getBucketIndex scalars scalarSize w i j)
    (codeCarry scalars scalarSize w nBuckets i j)

/-- The value of `bucketIndex` after lines 59-64 for chunk `j` of scalar `i`. -/
def codeDigit (scalars : Nat → Nat) (scalarSize w nBuckets i j : Nat) : Int :=
  if toUInt64 (codeRaw scalars scalarSize w nBuckets i j) ≥ (nBuckets : Int) then
    toInt32 (toUInt64 (toUInt64 (codeRaw scalars scalarSize w nBuckets i j)
      - (nBuckets : Int) * 2))
  else codeRaw scalars scalarSize w nBuckets i j

/-- The carry that goes into chunk `j` of scalar `i`, computed on unbounded integers. -/
def carryIn (scalars : Nat → Nat) (scalarSize w nBuckets i : Nat) : Nat → Int
  | 0 => 0
  | j + 1 =>
    if (getBucketIndex scalars scalarSize w i j : Int)
        + carryIn scalars scalarSize w nBuckets i j ≥ (nBuckets : Int) then 1 else 0

/-- The raw value of chunk `j` of scalar `i` on unbounded integers: its window plus the
incoming carry. -/
def rawValue (scalars : Nat → Nat) (scalarSize w nBuckets i j : Nat) : Int :=
  (getBucketIndex scalars scalarSize w i j : Int) + carryIn scalars scalarSize w nBuckets i j

/-- The signed digit of chunk `j` of scalar `i` on unbounded integers; it is the `int`
computed at lines 57-64 for window widths up to 30 (`codeDigit_eq_digit`). -/
def digit (scalars : Nat → Nat) (scalarSize w nBuckets i j : Nat) : Int :=
  if rawValue scalars scalarSize w nBuckets i j ≥ (nBuckets : Int) then
    rawValue scalars scalarSize w nBuckets i j - (nBuckets : Int) * 2
  else rawValue scalars scalarSize w nBuckets i j

/-- The digit as stored in the `int16_t` matrix at line 66. -/
def storedDigit (scalars : Nat → Nat) (scalarSize w nBuckets i j : Nat) : Int :=
  toInt16 (codeDigit scalars scalarSize w nBuckets i j)

/-- The value the pipeline computes from a digit matrix: chunk results combined by powers
of `2^w`. -/
def windowedSum (bases : Nat → G) (digits : Nat → Nat → Int) (w nChunks nBuckets nPoints : Nat) :
    G :=
  ∑ j ∈ Finset.range nChunks,
    2 ^ (j * w) • chunkSum bases (fun i => digits i j) nBuckets nPoints

end Group

/-! ## Concrete inputs -/

/-- A sequential build (no OpenMP) with window width `w` and zeroed heap, over the group of
integers. -/
def seqEnv (w : Nat) : Env Int :=
  ⟨false, 1, fun _ => 0, w, fun _ => 0, fun _ => 0, fun _ => 0⟩

/-- An OpenMP build with two workers, chunk `j` run by worker `j % 2`, window width `w`
and a heap that is not zeroed, over the group of integers. -/
def ompEnv (w : Nat) : Env Int :=
  ⟨true, 2, fun j => j % 2, w, fun p => 7 + p, fun p => 3 * p, fun p => 5 - p⟩

/-- Two points of the group of integers: the generator `1` and the identity. -/
def twoBases : Nat → Int := fun i => if i = 0 then 1 else 0

/-- Two scalars, the first one `s` and the second one `0`. -/
def twoScalars (s : Nat) : Nat → Nat := fun i => if i = 0 then s else 0

/-- The scalars `2, 5, 1` of the three-point scenario (every further scalar is `1`). -/
def scenarioScalars : Nat → Nat := fun i => if i = 0 then 2 else if i = 1 then 5 else 1

/-- The digit rows expected in the three-point scenario with `w = 2`:
`(-2, 1, 0, ...)`, `(1, 1, 0, ...)`, `(1, 0, 0, ...)`. -/
def scenarioDigits (i j : Nat) : Int :=
  if j = 0 then (if i = 0 then -2 else 1)
  else if j = 1 then (if i = 2 then 0 else 1)
  else 0

section Lemmas

variable {G : Type} [AddCommGroup G]

/-! ## Lemmas on the loops -/

theorem Arr.load_of_lt {α : Type} (a : Arr α) {i : Nat} (h : i < a.size) :
    a.load i = some (a.data i) := by
  simp [Arr.load, h]

theorem Arr.store_of_lt {α : Type} (a : Arr α) {i : Nat} (v : α) (h : i < a.size) :
    a.store i v = some ⟨a.size, Function.update a.data i v⟩ := by
  simp [Arr.store, h]

theorem Arr.load_of_not_lt {α : Type} (a : Arr α) {i : Nat} (h : ¬ i < a.size) :
    a.load i = none := by
  simp [Arr.load, h]

theorem Arr.store_of_not_lt {α : Type} (a : Arr α) {i : Nat} (v : α) (h : ¬ i < a.size) :
    a.store i v = none := by
  simp [Arr.store, h]

/-- The reducer loop started from `(t, tmp)` over the indices `k-1, ..., 0`. -/
theorem reduce_loop (m : Arr G) (off : Nat) :
    ∀ (k : Nat) (t tmp : G), off + k ≤ m.size →
      (List.range k).reverse.foldlM
        (fun (st : G × G) i =>
          (m.load (off + i)).map fun b => (st.1 + (st.2 + b), st.2 + b)) (t, tmp)
      = some (t + k • tmp + ∑ i ∈ Finset.range k, (i + 1) • m.data (off + i),
              tmp + ∑ i ∈ Finset.range k, m.data (off + i)) := by
  intro k
  induction k with
  | zero => intro t tmp _; simp
  | succ k ih =>
    intro t tmp hk
    have hlt : off + k < m.size := by omega
    rw [List.range_succ, List.reverse_append, List.reverse_singleton, List.singleton_append,
      List.foldlM_cons, Arr.load_of_lt m hlt]
    simp only [Option.map_some', Option.bind_eq_bind, Option.some_bind]
    rw [ih _ _ (by omega)]
    refine congrArg some (Prod.ext ?_ ?_)
    · simp only [Finset.sum_range_succ, add_smul, smul_add, one_smul]
      abel
    · simp only [Finset.sum_range_succ]
      abel

theorem reduceBuckets_eq (m : Arr G) (off nBuckets : Nat) (h1 : 1 ≤ nBuckets)
    (hsz : off + nBuckets ≤ m.size) :
    reduceBuckets m off nBuckets
      = some (∑ i ∈ Finset.range nBuckets, (i + 1) • m.data (off + i)) := by
  obtain ⟨k, rfl⟩ : ∃ k, nBuckets = k + 1 := ⟨nBuckets - 1, by omega⟩
  have hlt : off + k < m.size := by omega
  unfold reduceBuckets
  simp only [Nat.add_sub_cancel]
  rw [Arr.load_of_lt m hlt, Option.some_bind, reduce_loop m off k _ _ (by omega)]
  simp only [Option.map_some', Finset.sum_range_succ, add_smul, one_smul]
  congr 1
  abel

theorem dblTimes_eq (w : Nat) (r : G) : dblTimes w r = 2 ^ w • r := by
  unfold dblTimes
  induction w generalizing r with
  | zero => simp
  | succ w ih =>
    rw [List.range_succ, List.foldl_append, ih]
    simp only [List.foldl_cons, List.foldl_nil]
    rw [pow_succ, mul_smul, ← smul_add, ← two_smul ℕ r]

theorem combine_loop (chunks : Arr G) (w : Nat) :
    ∀ (k : Nat) (r : G), k ≤ chunks.size →
      (List.range k).reverse.foldlM
        (fun r j => (chunks.load j).map fun c => dblTimes w r + c) r
      = some (2 ^ (k * w) • r + ∑ j ∈ Finset.range k, 2 ^ (j * w) • chunks.data j) := by
  intro k
  induction k with
  | zero => intro r _; simp
  | succ k ih =>
    intro r hk
    have hlt : k < chunks.size := by omega
    rw [List.range_succ, List.reverse_append, List.reverse_singleton, List.singleton_append,
      List.foldlM_cons, Arr.load_of_lt chunks hlt]
    simp only [Option.map_some', Option.bind_eq_bind, Option.some_bind]
    rw [ih _ (by omega), dblTimes_eq, Finset.sum_range_succ, smul_add, ← mul_smul,
      ← pow_add, Nat.succ_mul]
    abel_nf

theorem combineChunks_eq (chunks : Arr G) (nChunks w : Nat) (h1 : 1 ≤ nChunks)
    (hsz : nChunks ≤ chunks.size) :
    combineChunks chunks nChunks w
      = some (∑ j ∈ Finset.range nChunks, 2 ^ (j * w) • chunks.data j) := by
  obtain ⟨k, rfl⟩ : ∃ k, nChunks = k + 1 := ⟨nChunks - 1, by omega⟩
  have hlt : k < chunks.size := by omega
  unfold combineChunks
  simp only [Nat.add_sub_cancel]
  rw [Arr.load_of_lt chunks hlt, Option.some_bind, combine_loop chunks w k _ (by omega),
    Finset.sum_range_succ]
  abel_nf

/-! ### Bucket reset -/

theorem reset_loop (off : Nat) :
    ∀ (k : Nat) (m : Arr G), off + k ≤ m.size →
      (List.range k).foldlM (fun m i => m.store (off + i) (0 : G)) m
        = some ⟨m.size, fun p => if off ≤ p ∧ p < off + k then 0 else m.data p⟩ := by
  intro k
  induction k with
  | zero =>
    intro m _
    obtain ⟨sz, dat⟩ := m
    simp only [List.range_zero, List.foldlM_nil, Option.pure_def, Option.some.injEq,
      Arr.mk.injEq, true_and]
    funext p
    rw [if_neg (by omega)]
  | succ k ih =>
    intro m hk
    rw [List.range_succ, List.foldlM_append, ih m (by omega)]
    simp only [Option.bind_eq_bind, Option.some_bind, List.foldlM_cons, List.foldlM_nil]
    rw [Arr.store_of_lt _ _ (by simp only; omega)]
    simp only [Option.pure_def, Option.some_bind, Option.some.injEq, Arr.mk.injEq, true_and]
    funext p
    by_cases hp : p = off + k
    · subst hp; simp
    · rw [Function.update_noteq hp]
      by_cases h1 : off ≤ p ∧ p < off + k
      · rw [if_pos h1, if_pos ⟨h1.1, by omega⟩]
      · rw [if_neg h1, if_neg (by omega)]

theorem reset_loop_fail (off : Nat) :
    ∀ (k : Nat) (m : Arr G), 0 < k → m.size < off + k →
      (List.range k).foldlM (fun m i => m.store (off + i) (0 : G)) m = none := by
  intro k
  induction k with
  | zero => intro m h; omega
  | succ k ih =>
    intro m _ hk
    rw [List.range_succ, List.foldlM_append]
    by_cases hle : off + k ≤ m.size
    · rw [reset_loop off k m hle]
      simp only [Option.bind_eq_bind, Option.some_bind, List.foldlM_cons, List.foldlM_nil]
      have hnot : ¬ off + k < m.size := by omega
      simp [Arr.store, hnot]
    · rcases Nat.eq_zero_or_pos k with hk0 | hk0
      · subst hk0
        have hnot : ¬ off < m.size := by omega
        simp [Arr.store, hnot]
      · rw [ih m hk0 (by omega)]
        rfl

theorem resetBuckets_eq (m : Arr G) (off nBuckets : Nat) (h : off + nBuckets ≤ m.size) :
    resetBuckets m off nBuckets
      = some ⟨m.size, fun p => if off ≤ p ∧ p < off + nBuckets then 0 else m.data p⟩ :=
  reset_loop off nBuckets m h

theorem resetBuckets_fail (m : Arr G) (off nBuckets : Nat) (h0 : 0 < nBuckets)
    (h : m.size < off + nBuckets) : resetBuckets m off nBuckets = none :=
  reset_loop_fail off nBuckets m h0 h

/-! ### Bucket accumulation -/

theorem accumulateStep_eq (bases : Nat → G) (sl : Arr Int) (nChunks j off : Nat) (m : Arr G)
    (i : Nat) (h : stepInBounds sl nChunks j off m.size i) :
    accumulateStep bases sl nChunks j off m i
      = some ⟨m.size, fun p => m.data p + bucketDelta bases sl nChunks j off i p⟩ := by
  obtain ⟨h1, h2, h3⟩ := h
  unfold accumulateStep
  rw [Arr.load_of_lt sl h1, Option.some_bind]
  obtain ⟨sz, dat⟩ := m
  by_cases hpos : 0 < sl.data (i * nChunks + j)
  · have hb := h2 hpos
    rw [if_pos hpos, Arr.load_of_lt _ hb, Option.some_bind, Arr.store_of_lt _ _ hb]
    simp only [Option.some.injEq, Arr.mk.injEq, true_and]
    funext p
    unfold bucketDelta
    by_cases hp : p = off + (sl.data (i * nChunks + j) - 1).toNat
    · rw [if_pos ⟨hpos, hp⟩, hp, Function.update_same]
    · rw [Function.update_noteq hp, if_neg (fun hh => hp hh.2), if_neg (fun hh => by omega),
        add_zero]
  · rw [if_neg hpos]
    by_cases hneg : sl.data (i * nChunks + j) < 0
    · have hb := h3 hneg
      rw [if_pos hneg, Arr.load_of_lt _ hb, Option.some_bind, Arr.store_of_lt _ _ hb]
      simp only [Option.some.injEq, Arr.mk.injEq, true_and]
      funext p
      unfold bucketDelta
      by_cases hp : p = off + (-sl.data (i * nChunks + j) - 1).toNat
      · rw [if_neg (fun hh => hpos hh.1), if_pos ⟨hneg, hp⟩, hp, Function.update_same,
          sub_eq_add_neg]
      · rw [Function.update_noteq hp, if_neg (fun hh => hpos hh.1), if_neg (fun hh => hp hh.2),
          add_zero]
    · rw [if_neg hneg]
      simp only [Option.some.injEq, Arr.mk.injEq, true_and]
      funext p
      unfold bucketDelta
      rw [if_neg (fun hh => hpos hh.1), if_neg (fun hh => hneg hh.1), add_zero]

theorem accumulateStep_fail (bases : Nat → G) (sl : Arr Int) (nChunks j off : Nat) (m : Arr G)
    (i : Nat) (h : ¬ stepInBounds sl nChunks j off m.size i) :
    accumulateStep bases sl nChunks j off m i = none := by
  unfold accumulateStep
  by_cases h1 : i * nChunks + j < sl.size
  · rw [Arr.load_of_lt sl h1, Option.some_bind]
    by_cases hpos : 0 < sl.data (i * nChunks + j)
    · rw [if_pos hpos]
      by_cases hb : off + (sl.data (i * nChunks + j) - 1).toNat < m.size
      · exact absurd ⟨h1, fun _ => hb, fun hh => by omega⟩ h
      · rw [Arr.load_of_not_lt _ hb]; rfl
    · rw [if_neg hpos]
      by_cases hneg : sl.data (i * nChunks + j) < 0
      · rw [if_pos hneg]
        by_cases hb : off + (-sl.data (i * nChunks + j) - 1).toNat < m.size
        · exact absurd ⟨h1, fun hh => absurd hh hpos, fun _ => hb⟩ h
        · rw [Arr.load_of_not_lt _ hb]; rfl
      · exact absurd ⟨h1, fun hh => absurd hh hpos, fun hh => absurd hh hneg⟩ h
  · rw [Arr.load_of_not_lt sl h1]; rfl

theorem accumulateIn_eq (bases : Nat → G) (sl : Arr Int) (nChunks j off : Nat) :
    ∀ (order : List Nat) (m : Arr G),
      (∀ i ∈ order, stepInBounds sl nChunks j off m.size i) →
      accumulateIn order bases sl nChunks j off m
        = some ⟨m.size, fun p =>
            m.data p + (order.map (bucketDelta bases sl nChunks j off · p)).sum⟩ := by
  intro order
  induction order with
  | nil => intro m _; simp [accumulateIn]
  | cons i l ih =>
    intro m h
    unfold accumulateIn at ih ⊢
    rw [List.foldlM_cons, accumulateStep_eq bases sl nChunks j off m i (h i (by simp))]
    simp only [Option.bind_eq_bind, Option.some_bind]
    rw [ih ⟨m.size, fun p => m.data p + bucketDelta bases sl nChunks j off i p⟩
      (fun k hk => h k (by simp [hk]))]
    simp only [Option.some.injEq, Arr.mk.injEq, true_and, List.map_cons, List.sum_cons]
    funext p
    abel

theorem accumulateIn_fail (bases : Nat → G) (sl : Arr Int) (nChunks j off : Nat) :
    ∀ (order : List Nat) (m : Arr G),
      (∃ i ∈ order, ¬ stepInBounds sl nChunks j off m.size i) →
      accumulateIn order bases sl nChunks j off m = none := by
  intro order
  induction order with
  | nil => intro m h; obtain ⟨i, hi, _⟩ := h; simp at hi
  | cons i l ih =>
    intro m h
    unfold accumulateIn at ih ⊢
    rw [List.foldlM_cons]
    by_cases hi : stepInBounds sl nChunks j off m.size i
    · rw [accumulateStep_eq bases sl nChunks j off m i hi]
      simp only [Option.bind_eq_bind, Option.some_bind]
      apply ih
      obtain ⟨k, hk, hbad⟩ := h
      rcases List.mem_cons.1 hk with rfl | hk
      · exact absurd hi hbad
      · exact ⟨k, hk, hbad⟩
    · rw [accumulateStep_fail bases sl nChunks j off m i hi]
      rfl

/-- The accumulation loop gives the same result for every order of the point indices. -/
theorem accumulateIn_perm (bases : Nat → G) (sl : Arr Int) (nChunks j off : Nat)
    (l1 l2 : List Nat) (hp : l1.Perm l2) (m : Arr G) :
    accumulateIn l1 bases sl nChunks j off m = accumulateIn l2 bases sl nChunks j off m := by
  by_cases h : ∀ i ∈ l1, stepInBounds sl nChunks j off m.size i
  · have h2 : ∀ i ∈ l2, stepInBounds sl nChunks j off m.size i :=
      fun i hi => h i (hp.mem_iff.2 hi)
    rw [accumulateIn_eq bases sl nChunks j off l1 m h,
      accumulateIn_eq bases sl nChunks j off l2 m h2]
    simp only [Option.some.injEq, Arr.mk.injEq, true_and]
    funext p
    rw [(hp.map _).sum_eq]
  · have h1 : ∃ i ∈ l1, ¬ stepInBounds sl nChunks j off m.size i := by
      by_contra hc
      exact h (fun i hi => by_contra fun hb => hc ⟨i, hi, hb⟩)
    have h2 : ∃ i ∈ l2, ¬ stepInBounds sl nChunks j off m.size i := by
      obtain ⟨i, hi, hb⟩ := h1
      exact ⟨i, hp.mem_iff.1 hi, hb⟩
    rw [accumulateIn_fail bases sl nChunks j off l1 m h1,
      accumulateIn_fail bases sl nChunks j off l2 m h2]

theorem accumulateIn_mk_eq (bases : Nat → G) (sl : Arr Int) (nChunks j off : Nat)
    (order : List Nat) (sz : Nat) (dat : Nat → G)
    (h : ∀ i ∈ order, stepInBounds sl nChunks j off sz i) :
    accumulateIn order bases sl nChunks j off ⟨sz, dat⟩
      = some ⟨sz, fun p => dat p + (order.map (bucketDelta bases sl nChunks j off · p)).sum⟩ :=
  accumulateIn_eq bases sl nChunks j off order ⟨sz, dat⟩ h

theorem accumulateIn_mk_fail (bases : Nat → G) (sl : Arr Int) (nChunks j off : Nat)
    (order : List Nat) (sz : Nat) (dat : Nat → G)
    (h : ∃ i ∈ order, ¬ stepInBounds sl nChunks j off sz i) :
    accumulateIn order bases sl nChunks j off ⟨sz, dat⟩ = none :=
  accumulateIn_fail bases sl nChunks j off order ⟨sz, dat⟩ h

theorem reduceBuckets_mk_eq (sz : Nat) (dat : Nat → G) (off nBuckets : Nat)
    (h1 : 1 ≤ nBuckets) (hsz : off + nBuckets ≤ sz) :
    reduceBuckets ⟨sz, dat⟩ off nBuckets
      = some (∑ i ∈ Finset.range nBuckets, (i + 1) • dat (off + i)) :=
  reduceBuckets_eq ⟨sz, dat⟩ off nBuckets h1 hsz

/-! ### The per-chunk body -/

theorem bucketDelta_slot (bases : Nat → G) (sl : Arr Int) (nChunks j off i k : Nat) :
    bucketDelta bases sl nChunks j off i (off + k)
      = digitDelta (sl.data (i * nChunks + j)) k (bases i) := by
  unfold bucketDelta digitDelta
  simp only [Nat.add_left_cancel_iff]

theorem chunkBody_eq (bases : Nat → G) (sl : Arr Int) (nChunks nBuckets nPoints : Nat)
    (numThread j : Nat) (bm : Arr G) (h1 : 1 ≤ nBuckets)
    (hslot : numThread * nBuckets + nBuckets ≤ bm.size)
    (hsteps : ∀ i ∈ List.range nPoints,
      stepInBounds sl nChunks j (numThread * nBuckets) bm.size i) :
    ∃ dat, chunkBody bases sl nChunks nBuckets nPoints numThread j bm
      = some (⟨bm.size, dat⟩,
          chunkSum bases (fun i => sl.data (i * nChunks + j)) nBuckets nPoints) := by
  unfold chunkBody accumulate
  simp only
  rw [resetBuckets_eq bm _ nBuckets hslot, Option.some_bind,
    accumulateIn_mk_eq bases sl nChunks j (numThread * nBuckets) (List.range nPoints)
      bm.size _ hsteps,
    Option.some_bind, reduceBuckets_mk_eq bm.size _ _ nBuckets h1 hslot]
  rw [Option.map_some']
  refine ⟨_, congrArg some (Prod.ext rfl ?_)⟩
  simp only
  unfold chunkSum
  refine Finset.sum_congr rfl (fun k hk => ?_)
  have hk2 : k < nBuckets := Finset.mem_range.1 hk
  simp only [bucketDelta_slot]
  rw [if_pos ⟨by omega, by omega⟩, zero_add]

theorem chunkBody_fail_slot (bases : Nat → G) (sl : Arr Int) (nChunks nBuckets nPoints : Nat)
    (numThread j : Nat) (bm : Arr G) (h1 : 1 ≤ nBuckets)
    (hslot : bm.size < numThread * nBuckets + nBuckets) :
    chunkBody bases sl nChunks nBuckets nPoints numThread j bm = none := by
  unfold chunkBody
  simp only
  rw [resetBuckets_fail bm _ nBuckets h1 hslot]
  rfl

theorem chunkBody_fail_step (bases : Nat → G) (sl : Arr Int) (nChunks nBuckets nPoints : Nat)
    (numThread j : Nat) (bm : Arr G)
    (hslot : numThread * nBuckets + nBuckets ≤ bm.size)
    (hsteps : ∃ i ∈ List.range nPoints,
      ¬ stepInBounds sl nChunks j (numThread * nBuckets) bm.size i) :
    chunkBody bases sl nChunks nBuckets nPoints numThread j bm = none := by
  unfold chunkBody accumulate
  simp only
  rw [resetBuckets_eq bm _ nBuckets hslot, Option.some_bind,
    accumulateIn_mk_fail bases sl nChunks j (numThread * nBuckets) (List.range nPoints)
      bm.size _ hsteps]
  rfl

/-- The chunk result does not depend on what the bucket matrix held before. -/
theorem chunkBody_result_congr (bases : Nat → G) (sl : Arr Int)
    (nChunks nBuckets nPoints : Nat) (numThread j : Nat) (size : Nat) (d1 d2 : Nat → G)
    (h1 : 1 ≤ nBuckets) :
    (chunkBody bases sl nChunks nBuckets nPoints numThread j ⟨size, d1⟩).map Prod.snd
      = (chunkBody bases sl nChunks nBuckets nPoints numThread j ⟨size, d2⟩).map Prod.snd := by
  by_cases hslot : numThread * nBuckets + nBuckets ≤ size
  · by_cases hsteps : ∀ i ∈ List.range nPoints,
        stepInBounds sl nChunks j (numThread * nBuckets) size i
    · obtain ⟨e1, he1⟩ := chunkBody_eq bases sl nChunks nBuckets nPoints numThread j
        ⟨size, d1⟩ h1 hslot hsteps
      obtain ⟨e2, he2⟩ := chunkBody_eq bases sl nChunks nBuckets nPoints numThread j
        ⟨size, d2⟩ h1 hslot hsteps
      rw [he1, he2]
      rfl
    · have hbad : ∃ i ∈ List.range nPoints,
          ¬ stepInBounds sl nChunks j (numThread * nBuckets) size i := by
        by_contra hc
        exact hsteps (fun i hi => by_contra fun hb => hc ⟨i, hi, hb⟩)
      rw [chunkBody_fail_step bases sl nChunks nBuckets nPoints numThread j ⟨size, d1⟩
          hslot hbad,
        chunkBody_fail_step bases sl nChunks nBuckets nPoints numThread j ⟨size, d2⟩
          hslot hbad]
  · rw [chunkBody_fail_slot bases sl nChunks nBuckets nPoints numThread j ⟨size, d1⟩ h1
        (by simp only; omega),
      chunkBody_fail_slot bases sl nChunks nBuckets nPoints numThread j ⟨size, d2⟩ h1
        (by simp only; omega)]

theorem calcBucketCount_pos (w : Nat) : 1 ≤ calcBucketCount w :=
  Nat.one_le_two_pow

/-! ### The digit slicer -/

theorem carryIn_succ (scalars : Nat → Nat) (scalarSize w nBuckets i j : Nat) :
    carryIn scalars scalarSize w nBuckets i (j + 1)
      = if rawValue scalars scalarSize w nBuckets i j ≥ (nBuckets : Int) then 1 else 0 := rfl

theorem codeCarry_succ (scalars : Nat → Nat) (scalarSize w nBuckets i j : Nat) :
    codeCarry scalars scalarSize w nBuckets i (j + 1)
      = if toUInt64 (codeRaw scalars scalarSize w nBuckets i j) ≥ (nBuckets : Int) then 1
        else 0 := rfl

theorem sliceStep_eq (scalars : Nat → Nat) (scalarSize w nChunks nBuckets i j : Nat)
    (sz : Nat) (dat : Nat → Int) (h : i * nChunks + j < sz) :
    sliceStep scalars scalarSize w nChunks nBuckets i
        (⟨sz, dat⟩, codeCarry scalars scalarSize w nBuckets i j) j
      = some (⟨sz, Function.update dat (i * nChunks + j)
                (storedDigit scalars scalarSize w nBuckets i j)⟩,
              codeCarry scalars scalarSize w nBuckets i (j + 1)) := by
  unfold sliceStep storedDigit codeDigit
  rw [codeCarry_succ]
  simp only
  by_cases hge : toUInt64 (codeRaw scalars scalarSize w nBuckets i j) ≥ (nBuckets : Int)
  · have hge2 := hge
    unfold codeRaw at hge2
    rw [if_pos hge2, if_pos hge, if_pos hge, Arr.store_of_lt _ _ h]
    rfl
  · have hge2 := hge
    unfold codeRaw at hge2
    rw [if_neg hge2, if_neg hge, if_neg hge, Arr.store_of_lt _ _ h]
    rfl

theorem slice_loop (scalars : Nat → Nat) (scalarSize w nChunks nBuckets i : Nat)
    (sz : Nat) (dat : Nat → Int) :
    ∀ k : Nat, i * nChunks + k ≤ sz →
      (List.range k).foldlM (sliceStep scalars scalarSize w nChunks nBuckets i) (⟨sz, dat⟩, 0)
        = some (⟨sz, fun p =>
                  if i * nChunks ≤ p ∧ p < i * nChunks + k then
                    storedDigit scalars scalarSize w nBuckets i (p - i * nChunks)
                  else dat p⟩,
                codeCarry scalars scalarSize w nBuckets i k) := by
  intro k
  induction k with
  | zero =>
    intro _
    simp only [List.range_zero, List.foldlM_nil, Option.pure_def, Option.some.injEq,
      Prod.mk.injEq, Arr.mk.injEq, true_and]
    refine ⟨?_, rfl⟩
    funext p
    rw [if_neg (by omega)]
  | succ k ih =>
    intro hk
    rw [List.range_succ, List.foldlM_append, ih (by omega)]
    simp only [Option.bind_eq_bind, Option.some_bind, List.foldlM_cons, List.foldlM_nil]
    rw [sliceStep_eq scalars scalarSize w nChunks nBuckets i k sz _ (by omega)]
    simp only [Option.some_bind, Option.pure_def, Option.some.injEq, Prod.mk.injEq,
      Arr.mk.injEq, true_and, and_true]
    funext p
    by_cases hp : p = i * nChunks + k
    · subst hp
      rw [Function.update_same, if_pos ⟨by omega, by omega⟩, Nat.add_sub_cancel_left]
    · rw [Function.update_noteq hp]
      by_cases h1 : i * nChunks ≤ p ∧ p < i * nChunks + k
      · rw [if_pos h1, if_pos ⟨h1.1, by omega⟩]
      · rw [if_neg h1, if_neg (by omega)]

theorem slicePoint_eq (scalars : Nat → Nat) (scalarSize w nChunks nBuckets i : Nat)
    (sz : Nat) (dat : Nat → Int) (h : i * nChunks + nChunks ≤ sz) :
    slicePoint scalars scalarSize w nChunks nBuckets ⟨sz, dat⟩ i
      = some ⟨sz, fun p =>
          if i * nChunks ≤ p ∧ p < i * nChunks + nChunks then
            storedDigit scalars scalarSize w nBuckets i (p - i * nChunks)
          else dat p⟩ := by
  unfold slicePoint
  rw [slice_loop scalars scalarSize w nChunks nBuckets i sz dat nChunks h]
  rfl

theorem sliceScalars_loop (scalars : Nat → Nat) (scalarSize w nChunks nBuckets : Nat)
    (sz : Nat) (dat : Nat → Int) :
    ∀ n : Nat, n * nChunks ≤ sz →
      (List.range n).foldlM (slicePoint scalars scalarSize w nChunks nBuckets) ⟨sz, dat⟩
        = some ⟨sz, fun p =>
            if p < n * nChunks then
              storedDigit scalars scalarSize w nBuckets (p / nChunks) (p % nChunks)
            else dat p⟩ := by
  intro n
  induction n with
  | zero =>
    intro _
    simp only [List.range_zero, List.foldlM_nil, Option.pure_def, Option.some.injEq,
      Arr.mk.injEq, true_and]
    funext p
    rw [if_neg (by omega)]
  | succ n ih =>
    intro hn
    have hn2 : n * nChunks + nChunks ≤ sz := by rw [← Nat.succ_mul]; exact hn
    rw [List.range_succ, List.foldlM_append, ih (by omega)]
    simp only [Option.bind_eq_bind, Option.some_bind, List.foldlM_cons, List.foldlM_nil]
    rw [slicePoint_eq scalars scalarSize w nChunks nBuckets n sz _ hn2]
    simp only [Option.some_bind, Option.pure_def, Option.some.injEq, Arr.mk.injEq, true_and]
    funext p
    rw [Nat.succ_mul]
    by_cases h1 : n * nChunks ≤ p ∧ p < n * nChunks + nChunks
    · have hdiv : p / nChunks = n :=
        Nat.div_eq_of_lt_le h1.1 (by rw [Nat.succ_mul]; exact h1.2)
      have hmod : p % nChunks = p - n * nChunks := by
        have := Nat.div_add_mod p nChunks
        rw [hdiv, Nat.mul_comm] at this
        omega
      rw [if_pos h1, if_pos h1.2, hdiv, hmod]
    · rw [if_neg h1]
      by_cases h2 : p < n * nChunks
      · rw [if_pos h2, if_pos (by omega)]
      · rw [if_neg h2, if_neg (by omega)]

theorem sliceScalars_eq (scalars : Nat → Nat) (scalarSize w nChunks nBuckets nPoints : Nat)
    (sz : Nat) (dat : Nat → Int) (h : nPoints * nChunks ≤ sz) :
    sliceScalars scalars scalarSize w nChunks nBuckets nPoints ⟨sz, dat⟩
      = some ⟨sz, fun p =>
          if p < nPoints * nChunks then
            storedDigit scalars scalarSize w nBuckets (p / nChunks) (p % nChunks)
          else dat p⟩ :=
  sliceScalars_loop scalars scalarSize w nChunks nBuckets sz dat nPoints h

/-- Position `i*nChunks + j` of the digit matrix holds the stored digit of chunk `j` of
scalar `i`. -/
theorem sliced_entry (scalars : Nat → Nat) (scalarSize w nChunks nBuckets nPoints : Nat)
    (dat : Nat → Int) (i j : Nat) (hi : i < nPoints) (hj : j < nChunks) :
    (if i * nChunks + j < nPoints * nChunks then
        storedDigit scalars scalarSize w nBuckets
          ((i * nChunks + j) / nChunks) ((i * nChunks + j) % nChunks)
      else dat (i * nChunks + j))
      = storedDigit scalars scalarSize w nBuckets i j := by
  have hlt : i * nChunks + j < nPoints * nChunks := by
    have : (i + 1) * nChunks ≤ nPoints * nChunks := Nat.mul_le_mul_right _ hi
    rw [Nat.succ_mul] at this
    omega
  have hdiv : (i * nChunks + j) / nChunks = i :=
    Nat.div_eq_of_lt_le (by omega) (by rw [Nat.succ_mul]; omega)
  have hmod : (i * nChunks + j) % nChunks = j := by
    rw [Nat.mul_comm, Nat.mul_add_mod, Nat.mod_eq_of_lt hj]
  rw [if_pos hlt, hdiv, hmod]

theorem carryIn_range (scalars : Nat → Nat) (scalarSize w nBuckets i j : Nat) :
    carryIn scalars scalarSize w nBuckets i j = 0
      ∨ carryIn scalars scalarSize w nBuckets i j = 1 := by
  cases j with
  | zero => exact Or.inl rfl
  | succ j =>
    rw [carryIn_succ]
    by_cases h : rawValue scalars scalarSize w nBuckets i j ≥ (nBuckets : Int)
    · rw [if_pos h]; exact Or.inr rfl
    · rw [if_neg h]; exact Or.inl rfl

theorem getBucketIndex_lt (scalars : Nat → Nat) (scalarSize w i j : Nat) :
    getBucketIndex scalars scalarSize w i j < 2 ^ w :=
  Nat.mod_lt _ (by positivity)

theorem two_mul_calcBucketCount (w : Nat) (hw : 1 ≤ w) : 2 * calcBucketCount w = 2 ^ w := by
  unfold calcBucketCount
  obtain ⟨k, rfl⟩ : ∃ k, w = k + 1 := ⟨w - 1, by omega⟩
  rw [Nat.add_sub_cancel, pow_succ, Nat.mul_comm]

/-- The `int` digit lies in `[-nBuckets, nBuckets)`. -/
theorem digit_range (scalars : Nat → Nat) (scalarSize w i j : Nat) (hw : 1 ≤ w) :
    -(calcBucketCount w : Int) ≤ digit scalars scalarSize w (calcBucketCount w) i j
      ∧ digit scalars scalarSize w (calcBucketCount w) i j < (calcBucketCount w : Int) := by
  have hwin := getBucketIndex_lt scalars scalarSize w i j
  rw [← two_mul_calcBucketCount w hw] at hwin
  have hc := carryIn_range scalars scalarSize w (calcBucketCount w) i j
  unfold digit rawValue
  split_ifs with h <;> omega

theorem codeCarry_range (scalars : Nat → Nat) (scalarSize w nBuckets i j : Nat) :
    codeCarry scalars scalarSize w nBuckets i j = 0
      ∨ codeCarry scalars scalarSize w nBuckets i j = 1 := by
  cases j with
  | zero => exact Or.inl rfl
  | succ j =>
    rw [codeCarry_succ]
    by_cases h : toUInt64 (codeRaw scalars scalarSize w nBuckets i j) ≥ (nBuckets : Int)
    · rw [if_pos h]; exact Or.inr rfl
    · rw [if_neg h]; exact Or.inl rfl

theorem getBucketIndex_lt_of_le (scalars : Nat → Nat) (scalarSize w i j : Nat) (hw : w ≤ 30) :
    (getBucketIndex scalars scalarSize w i j : Int) < 1073741824 := by
  have h1 := getBucketIndex_lt scalars scalarSize w i j
  have h2 : 2 ^ w ≤ 2 ^ 30 := Nat.pow_le_pow_right (by decide) hw
  have h3 : (2 : Nat) ^ 30 = 1073741824 := by norm_num
  omega

/-- A window of at most 30 bits plus a carry fits the 32-bit `int`: line 57 computes the
integer sum. -/
theorem rawBucketIndex_exact (scalars : Nat → Nat) (scalarSize w i j : Nat) (c : Int)
    (hw : w ≤ 30) (hc : c = 0 ∨ c = 1) :
    rawBucketIndex (getBucketIndex scalars scalarSize w i j) c
      = (getBucketIndex scalars scalarSize w i j : Int) + c := by
  have hwin := getBucketIndex_lt_of_le scalars scalarSize w i j hw
  unfold rawBucketIndex toInt32
  omega

/-- For window widths up to 30 the machine carry is the carry on unbounded integers. -/
theorem codeCarry_eq_carryIn (scalars : Nat → Nat) (scalarSize w nBuckets i : Nat)
    (hw : w ≤ 30) :
    ∀ j, codeCarry scalars scalarSize w nBuckets i j
      = carryIn scalars scalarSize w nBuckets i j := by
  intro j
  induction j with
  | zero => rfl
  | succ j ih =>
    have hwin := getBucketIndex_lt_of_le scalars scalarSize w i j hw
    have hc := carryIn_range scalars scalarSize w nBuckets i j
    rw [codeCarry_succ, carryIn_succ]
    unfold codeRaw rawValue
    rw [ih, rawBucketIndex_exact scalars scalarSize w i j _ hw hc]
    unfold toUInt64
    split_ifs <;> omega

theorem codeRaw_eq_rawValue (scalars : Nat → Nat) (scalarSize w nBuckets i j : Nat)
    (hw : w ≤ 30) :
    codeRaw scalars scalarSize w nBuckets i j = rawValue scalars scalarSize w nBuckets i j := by
  unfold codeRaw rawValue
  rw [codeCarry_eq_carryIn scalars scalarSize w nBuckets i hw j,
    rawBucketIndex_exact scalars scalarSize w i j _ hw
      (carryIn_range scalars scalarSize w nBuckets i j)]

/-- For window widths up to 30 and at most `2^30` buckets the machine digit is the digit on
unbounded integers. -/
theorem codeDigit_eq_digit (scalars : Nat → Nat) (scalarSize w nBuckets i j : Nat)
    (hw : w ≤ 30) (hnb : nBuckets ≤ 1073741824) :
    codeDigit scalars scalarSize w nBuckets i j = digit scalars scalarSize w nBuckets i j := by
  have hwin := getBucketIndex_lt_of_le scalars scalarSize w i j hw
  have hc := carryIn_range scalars scalarSize w nBuckets i j
  have hraw : rawValue scalars scalarSize w nBuckets i j
      = (getBucketIndex scalars scalarSize w i j : Int)
        + carryIn scalars scalarSize w nBuckets i j := rfl
  unfold codeDigit digit
  rw [codeRaw_eq_rawValue scalars scalarSize w nBuckets i j hw]
  unfold toUInt64 toInt32
  split_ifs <;> omega

theorem calcBucketCount_le_of_le (w : Nat) (hw : w ≤ 30) : calcBucketCount w ≤ 1073741824 := by
  unfold calcBucketCount
  calc 2 ^ (w - 1) ≤ 2 ^ 30 := Nat.pow_le_pow_right (by decide) (by omega)
    _ = 1073741824 := by norm_num

theorem calcBucketCount_ge_of_ge (w : Nat) (hw : 31 ≤ w) : 1073741824 ≤ calcBucketCount w := by
  unfold calcBucketCount
  calc 1073741824 = 2 ^ 30 := by norm_num
    _ ≤ 2 ^ (w - 1) := Nat.pow_le_pow_right (by decide) (by omega)

/-- The stored digit lies in `[-nBuckets, nBuckets)`, for every window width. -/
theorem storedDigit_range (scalars : Nat → Nat) (scalarSize w i j : Nat) (hw : 1 ≤ w) :
    -(calcBucketCount w : Int) ≤ storedDigit scalars scalarSize w (calcBucketCount w) i j
      ∧ storedDigit scalars scalarSize w (calcBucketCount w) i j < (calcBucketCount w : Int) := by
  rcases Nat.lt_or_ge w 31 with hw30 | hw31
  · have hd := digit_range scalars scalarSize w i j hw
    unfold storedDigit
    rw [codeDigit_eq_digit scalars scalarSize w (calcBucketCount w) i j (by omega)
      (calcBucketCount_le_of_le w (by omega))]
    unfold toInt16
    by_cases hsmall : calcBucketCount w ≤ 32768
    · omega
    · omega
  · have hb := calcBucketCount_ge_of_ge w hw31
    unfold storedDigit toInt16
    omega

/-! ### The chunk loop and the whole pipeline -/

theorem chunkSum_congr (bases : Nat → G) (d1 d2 : Nat → Int) (nBuckets nPoints : Nat)
    (h : ∀ i < nPoints, d1 i = d2 i) :
    chunkSum bases d1 nBuckets nPoints = chunkSum bases d2 nBuckets nPoints := by
  unfold chunkSum
  refine Finset.sum_congr rfl (fun k _ => ?_)
  congr 2
  refine List.map_congr_left (fun i hi => ?_)
  rw [h i (List.mem_range.1 hi)]

theorem chunk_loop (env : Env G) (bases : Nat → G) (sl : Arr Int)
    (nChunks nBuckets nPoints : Nat) (bsz csz : Nat) (cdat : Nat → G) (h1 : 1 ≤ nBuckets) :
    ∀ (k : Nat) (bdat : Nat → G), k ≤ csz →
      (∀ j < k, (if env.openmp then env.ompThreadNum j else 0) * nBuckets + nBuckets ≤ bsz) →
      (∀ j < k, ∀ i ∈ List.range nPoints, stepInBounds sl nChunks j
        ((if env.openmp then env.ompThreadNum j else 0) * nBuckets) bsz i) →
      ∃ bdat2, (List.range k).foldlM
        (fun (st : Arr G × Arr G) j =>
          let numThread := if env.openmp then env.ompThreadNum j else 0
          (chunkBody bases sl nChunks nBuckets nPoints numThread j st.1).bind
            fun res => (st.2.store j res.2).map fun chunks => (res.1, chunks))
        (⟨bsz, bdat⟩, ⟨csz, cdat⟩)
        = some (⟨bsz, bdat2⟩, ⟨csz, fun p =>
            if p < k then chunkSum bases (fun i => sl.data (i * nChunks + p)) nBuckets nPoints
            else cdat p⟩) := by
  intro k
  induction k with
  | zero =>
    intro bdat _ _ _
    refine ⟨bdat, ?_⟩
    simp only [List.range_zero, List.foldlM_nil, Option.pure_def, Option.some.injEq,
      Prod.mk.injEq, Arr.mk.injEq, true_and]
    funext p
    rw [if_neg (by omega)]
  | succ k ih =>
    intro bdat hk hslot hsteps
    obtain ⟨b1, hb1⟩ := ih bdat (by omega) (fun j hj => hslot j (by omega))
      (fun j hj => hsteps j (by omega))
    obtain ⟨b2, hb2⟩ := chunkBody_eq bases sl nChunks nBuckets nPoints
      (if env.openmp then env.ompThreadNum k else 0) k ⟨bsz, b1⟩ h1
      (hslot k (by omega)) (hsteps k (by omega))
    refine ⟨b2, ?_⟩
    rw [List.range_succ, List.foldlM_append, hb1]
    simp only [Option.bind_eq_bind, Option.some_bind, List.foldlM_cons, List.foldlM_nil]
    rw [hb2]
    simp only [Option.some_bind]
    rw [Arr.store_of_lt _ _ (show k < csz by omega)]
    simp only [Option.map_some', Option.some_bind, Option.pure_def, Option.some.injEq,
      Prod.mk.injEq, Arr.mk.injEq, true_and]
    funext p
    by_cases hp : p = k
    · subst hp
      rw [Function.update_same, if_pos (by omega)]
    · rw [Function.update_noteq hp]
      by_cases h2 : p < k
      · rw [if_pos h2, if_pos (by omega)]
      · rw [if_neg h2, if_neg (by omega)]

/-- The windowed pipeline returns the combination of the stored digits, whenever the
scalars have at least one chunk and every worker number is below `nThreads`. -/
theorem runWindowed_eq (env : Env G) (bases : Nat → G) (scalars : Nat → Nat)
    (scalarSize nPoints nThreads : Nat) (hw : 1 ≤ env.bitsPerChunk)
    (hc : 1 ≤ calcChunkCount scalarSize env.bitsPerChunk)
    (hsched : ∀ j < calcChunkCount scalarSize env.bitsPerChunk,
      (if env.openmp then env.ompThreadNum j else 0) < nThreads) :
    runWindowed env bases scalars scalarSize nPoints nThreads
      = some (windowedSum bases
          (storedDigit scalars scalarSize env.bitsPerChunk (calcBucketCount env.bitsPerChunk))
          env.bitsPerChunk (calcChunkCount scalarSize env.bitsPerChunk)
          (calcBucketCount env.bitsPerChunk) nPoints) := by
  unfold runWindowed
  simp only
  generalize hnc : calcChunkCount scalarSize env.bitsPerChunk = nChunks at hc hsched ⊢
  have hnb := calcBucketCount_pos env.bitsPerChunk
  rw [sliceScalars_eq scalars scalarSize env.bitsPerChunk nChunks
      (calcBucketCount env.bitsPerChunk) nPoints (nChunks * nPoints) env.heapSliced
      (by rw [Nat.mul_comm]),
    Option.some_bind]
  have hentry : ∀ i < nPoints, ∀ j < nChunks,
      (if i * nChunks + j < nPoints * nChunks then
          storedDigit scalars scalarSize env.bitsPerChunk (calcBucketCount env.bitsPerChunk)
            ((i * nChunks + j) / nChunks) ((i * nChunks + j) % nChunks)
        else env.heapSliced (i * nChunks + j))
        = storedDigit scalars scalarSize env.bitsPerChunk
            (calcBucketCount env.bitsPerChunk) i j :=
    fun i hi j hj => sliced_entry scalars scalarSize env.bitsPerChunk nChunks
      (calcBucketCount env.bitsPerChunk) nPoints env.heapSliced i j hi hj
  have hslot : ∀ j < nChunks,
      (if env.openmp then env.ompThreadNum j else 0) * calcBucketCount env.bitsPerChunk
        + calcBucketCount env.bitsPerChunk ≤ nThreads * calcBucketCount env.bitsPerChunk := by
    intro j hj
    have := Nat.mul_le_mul_right (calcBucketCount env.bitsPerChunk)
      (Nat.succ_le_of_lt (hsched j hj))
    rw [Nat.succ_mul] at this
    exact this
  obtain ⟨b2, hb2⟩ := chunk_loop env bases
    ⟨nChunks * nPoints, fun p =>
      if p < nPoints * nChunks then
        storedDigit scalars scalarSize env.bitsPerChunk (calcBucketCount env.bitsPerChunk)
          (p / nChunks) (p % nChunks)
      else env.heapSliced p⟩
    nChunks (calcBucketCount env.bitsPerChunk) nPoints
    (nThreads * calcBucketCount env.bitsPerChunk) nChunks env.heapChunks hnb nChunks
    env.heapBuckets (le_refl _) hslot
    (by
      intro j hj i hi
      have hi2 := List.mem_range.1 hi
      have hr := storedDigit_range scalars scalarSize env.bitsPerChunk i j hw
      have hs := hslot j hj
      refine ⟨?_, ?_, ?_⟩
      · have : (i + 1) * nChunks ≤ nPoints * nChunks := Nat.mul_le_mul_right _ hi2
        rw [Nat.succ_mul] at this
        rw [Nat.mul_comm nChunks nPoints]
        show i * nChunks + j < nPoints * nChunks
        omega
      · simp only [hentry i hi2 j hj]
        intro hpos
        omega
      · simp only [hentry i hi2 j hj]
        intro hneg
        omega)
  unfold chunkLoop
  rw [hb2, Option.some_bind]
  simp only
  rw [combineChunks_eq _ nChunks env.bitsPerChunk hc (le_refl _)]
  unfold windowedSum
  simp only [Option.some.injEq]
  refine Finset.sum_congr rfl (fun j hj => ?_)
  have hj2 := Finset.mem_range.1 hj
  rw [if_pos hj2]
  congr 1
  exact chunkSum_congr bases _ _ _ nPoints (fun i hi => hentry i hi j hj2)

theorem runWindowed_no_chunks (env : Env G) (bases : Nat → G) (scalars : Nat → Nat)
    (scalarSize nPoints nThreads : Nat)
    (hc : calcChunkCount scalarSize env.bitsPerChunk = 0) :
    runWindowed env bases scalars scalarSize nPoints nThreads = none := by
  unfold runWindowed
  simp only
  rw [hc, sliceScalars_eq scalars scalarSize env.bitsPerChunk 0
      (calcBucketCount env.bitsPerChunk) nPoints (0 * nPoints) env.heapSliced (by simp),
    Option.some_bind]
  unfold chunkLoop combineChunks
  simp [Arr.load]

theorem calcChunkCount_zero_width (scalarSize : Nat) : calcChunkCount scalarSize 0 = 0 := by
  unfold calcChunkCount
  exact Nat.div_zero _

theorem mulByScalar_loop (base : G) (scalar : Nat) :
    ∀ (k : Nat) (r : G),
      (List.range k).reverse.foldl
        (fun r b => if scalar / 2 ^ b % 2 = 1 then (r + r) + base else r + r) r
      = 2 ^ k • r + (scalar % 2 ^ k) • base := by
  intro k
  induction k with
  | zero => intro r; simp [Nat.mod_one]
  | succ k ih =>
    intro r
    rw [List.range_succ, List.reverse_append, List.reverse_singleton, List.singleton_append,
      List.foldl_cons, ih, Nat.mod_pow_succ]
    rcases Nat.mod_two_eq_zero_or_one (scalar / 2 ^ k) with hb | hb
    · rw [hb, if_neg (by omega), Nat.mul_zero, pow_succ, mul_smul, two_smul]
      rfl
    · rw [hb, if_pos rfl, Nat.mul_one, pow_succ, mul_smul, two_smul, smul_add, add_smul]
      abel

/-- The double-and-add of `mulByScalar` is the scalar multiple by the `scalarSize`-bit
scalar. -/
theorem mulByScalar_eq (base : G) (scalar scalarSize : Nat) :
    mulByScalar base scalar scalarSize = (scalar % 2 ^ scalarSize) • base := by
  unfold mulByScalar
  rw [mulByScalar_loop, smul_zero, zero_add]


/-! ### Sums of digits -/

theorem list_range_map_sum {M : Type} [AddCommMonoid M] (f : Nat → M) :
    ∀ n : Nat, ((List.range n).map f).sum = ∑ i ∈ Finset.range n, f i := by
  intro n
  induction n with
  | zero => simp
  | succ n ih =>
    rw [List.range_succ, List.map_append, List.sum_append, ih, Finset.sum_range_succ]
    simp

/-- The buckets weighted by their rank give back the digit: `Σ_k (k+1)·δ(d, k, P) = d·P`. -/
theorem digitDelta_weighted_sum (d : Int) (P : G) (nBuckets : Nat)
    (h1 : -(nBuckets : Int) ≤ d) (h2 : d ≤ (nBuckets : Int)) :
    ∑ k ∈ Finset.range nBuckets, (k + 1) • digitDelta d k P = d • P := by
  rcases lt_trichotomy d 0 with hneg | hzero | hpos
  · rw [Finset.sum_eq_single (-d - 1).toNat]
    · unfold digitDelta
      rw [if_neg (by omega), if_pos ⟨hneg, rfl⟩]
      have hd : d = -(((-d - 1).toNat + 1 : Nat) : Int) := by omega
      conv_rhs => rw [hd]
      rw [neg_smul, smul_neg, natCast_zsmul]
    · intro k _ hk
      unfold digitDelta
      rw [if_neg (by omega), if_neg (fun hh => hk hh.2), smul_zero]
    · intro hk
      exact absurd (Finset.mem_range.2 (by omega)) hk
  · subst hzero
    rw [zero_smul]
    refine Finset.sum_eq_zero (fun k _ => ?_)
    unfold digitDelta
    rw [if_neg (by omega), if_neg (by omega), smul_zero]
  · rw [Finset.sum_eq_single (d - 1).toNat]
    · unfold digitDelta
      rw [if_pos ⟨hpos, rfl⟩]
      have hd : d = (((d - 1).toNat + 1 : Nat) : Int) := by omega
      conv_rhs => rw [hd]
      rw [natCast_zsmul]
    · intro k _ hk
      unfold digitDelta
      rw [if_neg (fun hh => hk hh.2), if_neg (by omega), smul_zero]
    · intro hk
      exact absurd (Finset.mem_range.2 (by omega)) hk

/-- The weighted bucket sum of a chunk is `Σ_i digit_i · bases[i]`. -/
theorem chunkSum_eq (bases : Nat → G) (digits : Nat → Int) (nBuckets nPoints : Nat)
    (h : ∀ i < nPoints, -(nBuckets : Int) ≤ digits i ∧ digits i ≤ (nBuckets : Int)) :
    chunkSum bases digits nBuckets nPoints
      = ∑ i ∈ Finset.range nPoints, digits i • bases i := by
  unfold chunkSum
  simp only [list_range_map_sum, Finset.smul_sum]
  rw [Finset.sum_comm]
  refine Finset.sum_congr rfl (fun i hi => ?_)
  have hi2 := h i (Finset.mem_range.1 hi)
  exact digitDelta_weighted_sum (digits i) (bases i) nBuckets hi2.1 hi2.2

/-- The value computed from a digit matrix is `Σ_i (Σ_j digit(i,j)·2^(j·w)) · bases[i]`. -/
theorem windowedSum_eq (bases : Nat → G) (digits : Nat → Nat → Int)
    (w nChunks nBuckets nPoints : Nat)
    (h : ∀ i < nPoints, ∀ j < nChunks,
      -(nBuckets : Int) ≤ digits i j ∧ digits i j ≤ (nBuckets : Int)) :
    windowedSum bases digits w nChunks nBuckets nPoints
      = ∑ i ∈ Finset.range nPoints,
          (∑ j ∈ Finset.range nChunks, digits i j * 2 ^ (j * w)) • bases i := by
  unfold windowedSum
  have hstep : ∀ j ∈ Finset.range nChunks,
      2 ^ (j * w) • chunkSum bases (fun i => digits i j) nBuckets nPoints
        = ∑ i ∈ Finset.range nPoints, (digits i j * 2 ^ (j * w)) • bases i := by
    intro j hj
    rw [chunkSum_eq bases (fun i => digits i j) nBuckets nPoints
      (fun i hi => h i hi j (Finset.mem_range.1 hj)), Finset.smul_sum]
    refine Finset.sum_congr rfl (fun i _ => ?_)
    rw [← natCast_zsmul, smul_smul, mul_comm]
    push_cast
    rfl
  rw [Finset.sum_congr rfl hstep, Finset.sum_comm]
  refine Finset.sum_congr rfl (fun i _ => ?_)
  rw [Finset.sum_smul]

/-! ### The digits of one scalar -/

theorem getBucketIndex_cast (scalars : Nat → Nat) (scalarSize w i j : Nat) :
    (getBucketIndex scalars scalarSize w i j : Int)
      = (((scalars i % 2 ^ scalarSize) / 2 ^ (j * w) % 2 ^ w : Nat) : Int) := rfl

/-- A digit and the carry it sends on make up the raw value: `digit + carry·2^w = v`. -/
theorem digit_add_carry (scalars : Nat → Nat) (scalarSize w i j : Nat) (hw : 1 ≤ w) :
    digit scalars scalarSize w (calcBucketCount w) i j
        + carryIn scalars scalarSize w (calcBucketCount w) i (j + 1) * 2 ^ w
      = rawValue scalars scalarSize w (calcBucketCount w) i j := by
  have h2 : ((2 : Int) ^ w) = (calcBucketCount w : Int) * 2 := by
    have := two_mul_calcBucketCount w hw
    have hc : ((2 * calcBucketCount w : Nat) : Int) = ((2 ^ w : Nat) : Int) := by rw [this]
    push_cast at hc
    omega
  rw [carryIn_succ, h2]
  unfold digit
  split_ifs with h <;> omega

/-- The digits of the first `k` chunks and the carry into chunk `k` make up the low `k·w`
bits of the scalar. -/
theorem digit_sum_carry (scalars : Nat → Nat) (scalarSize w i : Nat) (hw : 1 ≤ w) :
    ∀ k : Nat,
      ∑ j ∈ Finset.range k, digit scalars scalarSize w (calcBucketCount w) i j * 2 ^ (j * w)
          + carryIn scalars scalarSize w (calcBucketCount w) i k * 2 ^ (k * w)
        = (((scalars i % 2 ^ scalarSize) % 2 ^ (k * w) : Nat) : Int) := by
  intro k
  induction k with
  | zero => simp [carryIn, Nat.mod_one]
  | succ k ih =>
    have hd := digit_add_carry scalars scalarSize w i k hw
    have hmod : (scalars i % 2 ^ scalarSize) % 2 ^ ((k + 1) * w)
        = (scalars i % 2 ^ scalarSize) % 2 ^ (k * w)
          + 2 ^ (k * w) * ((scalars i % 2 ^ scalarSize) / 2 ^ (k * w) % 2 ^ w) := by
      rw [Nat.succ_mul, pow_add, Nat.mod_mul]
    rw [Finset.sum_range_succ, hmod, Nat.cast_add, Nat.cast_mul, Nat.cast_pow, Nat.cast_ofNat,
      ← ih]
    have hraw : rawValue scalars scalarSize w (calcBucketCount w) i k
        = (((scalars i % 2 ^ scalarSize) / 2 ^ (k * w) % 2 ^ w : Nat) : Int)
          + carryIn scalars scalarSize w (calcBucketCount w) i k := rfl
    have hp : (2 : Int) ^ ((k + 1) * w) = 2 ^ (k * w) * 2 ^ w := by
      rw [Nat.succ_mul, pow_add]
    rw [hp]
    linear_combination (2 : Int) ^ (k * w) * hd + (2 : Int) ^ (k * w) * hraw

theorem le_calcChunkCount_mul (scalarSize w : Nat) (hw : 1 ≤ w) :
    scalarSize ≤ calcChunkCount scalarSize w * w := by
  unfold calcChunkCount
  have h1 := Nat.div_add_mod (scalarSize + w - 1) w
  have h2 := Nat.mod_lt (scalarSize + w - 1) (show 0 < w by omega)
  rw [Nat.mul_comm] at h1
  omega

theorem calcChunkCount_pos (scalarSize w : Nat) (hw : 1 ≤ w) (hs : 1 ≤ scalarSize) :
    1 ≤ calcChunkCount scalarSize w := by
  have h := le_calcChunkCount_mul scalarSize w hw
  rcases Nat.eq_zero_or_pos (calcChunkCount scalarSize w) with h0 | h0
  · rw [h0, Nat.zero_mul] at h
    omega
  · exact h0

/-- The digits of all chunks and the carry left after the last chunk make up the scalar. -/
theorem digit_sum_final (scalars : Nat → Nat) (scalarSize w i : Nat) (hw : 1 ≤ w) :
    ∑ j ∈ Finset.range (calcChunkCount scalarSize w),
        digit scalars scalarSize w (calcBucketCount w) i j * 2 ^ (j * w)
      = ((scalars i % 2 ^ scalarSize : Nat) : Int)
        - carryIn scalars scalarSize w (calcBucketCount w) i (calcChunkCount scalarSize w)
          * 2 ^ (calcChunkCount scalarSize w * w) := by
  have h := digit_sum_carry scalars scalarSize w i hw (calcChunkCount scalarSize w)
  have hlt : scalars i % 2 ^ scalarSize < 2 ^ (calcChunkCount scalarSize w * w) :=
    lt_of_lt_of_le (Nat.mod_lt _ (by positivity))
      (Nat.pow_le_pow_right (by decide) (le_calcChunkCount_mul scalarSize w hw))
  rw [Nat.mod_eq_of_lt hlt] at h
  omega

theorem calcBucketCount_le (w : Nat) (hw : w ≤ 16) : calcBucketCount w ≤ 32768 := by
  unfold calcBucketCount
  calc 2 ^ (w - 1) ≤ 2 ^ 15 := Nat.pow_le_pow_right (by decide) (by omega)
    _ = 32768 := by norm_num

/-- For window widths up to 16 the `int16_t` store keeps the digit. -/
theorem storedDigit_eq_digit (scalars : Nat → Nat) (scalarSize w i j : Nat) (hw : 1 ≤ w)
    (hw16 : w ≤ 16) :
    storedDigit scalars scalarSize w (calcBucketCount w) i j
      = digit scalars scalarSize w (calcBucketCount w) i j := by
  have hd := digit_range scalars scalarSize w i j hw
  have hb := calcBucketCount_le w hw16
  unfold storedDigit
  rw [codeDigit_eq_digit scalars scalarSize w (calcBucketCount w) i j (by omega) (by omega)]
  unfold toInt16
  omega

/-- The windowed pipeline returns `Σ_i (Σ_j stored(i,j)·2^(j·w)) · bases[i]`. -/
theorem runWindowed_eq_sum (env : Env G) (bases : Nat → G) (scalars : Nat → Nat)
    (scalarSize nPoints nThreads : Nat) (hw : 1 ≤ env.bitsPerChunk)
    (hc : 1 ≤ calcChunkCount scalarSize env.bitsPerChunk)
    (hsched : ∀ j < calcChunkCount scalarSize env.bitsPerChunk,
      (if env.openmp then env.ompThreadNum j else 0) < nThreads) :
    runWindowed env bases scalars scalarSize nPoints nThreads
      = some (∑ i ∈ Finset.range nPoints,
          (∑ j ∈ Finset.range (calcChunkCount scalarSize env.bitsPerChunk),
            storedDigit scalars scalarSize env.bitsPerChunk
              (calcBucketCount env.bitsPerChunk) i j * 2 ^ (j * env.bitsPerChunk))
            • bases i) := by
  rw [runWindowed_eq env bases scalars scalarSize nPoints nThreads hw hc hsched,
    windowedSum_eq]
  intro i _ j _
  have := storedDigit_range scalars scalarSize env.bitsPerChunk i j hw
  omega

/-- For window widths up to 16 the windowed pipeline returns
`Σ_i (scalar_i - c_i·2^(nChunks·w)) · bases[i]`, `c_i` being the carry left after the last
chunk of scalar `i`. -/
theorem runWindowed_eq_scalars (env : Env G) (bases : Nat → G) (scalars : Nat → Nat)
    (scalarSize nPoints nThreads : Nat) (hw : 1 ≤ env.bitsPerChunk)
    (hw16 : env.bitsPerChunk ≤ 16)
    (hc : 1 ≤ calcChunkCount scalarSize env.bitsPerChunk)
    (hsched : ∀ j < calcChunkCount scalarSize env.bitsPerChunk,
      (if env.openmp then env.ompThreadNum j else 0) < nThreads) :
    runWindowed env bases scalars scalarSize nPoints nThreads
      = some (∑ i ∈ Finset.range nPoints,
          (((scalars i % 2 ^ scalarSize : Nat) : Int)
            - carryIn scalars scalarSize env.bitsPerChunk (calcBucketCount env.bitsPerChunk) i
                (calcChunkCount scalarSize env.bitsPerChunk)
              * 2 ^ (calcChunkCount scalarSize env.bitsPerChunk * env.bitsPerChunk))
            • bases i) := by
  rw [runWindowed_eq_sum env bases scalars scalarSize nPoints nThreads hw hc hsched]
  refine congrArg some (Finset.sum_congr rfl (fun i _ => ?_))
  rw [← digit_sum_final scalars scalarSize env.bitsPerChunk i hw]
  congr 1
  refine Finset.sum_congr rfl (fun j _ => ?_)
  rw [storedDigit_eq_digit scalars scalarSize env.bitsPerChunk i j hw hw16]

/-- The slicing loop succeeds on the freshly allocated digit matrix and leaves the stored
digit of chunk `j` of scalar `i` at position `i*nChunks + j`. -/
theorem sliceScalars_entries (scalars : Nat → Nat) (scalarSize w nChunks nBuckets nPoints : Nat)
    (heap : Nat → Int) :
    ∃ sl, sliceScalars scalars scalarSize w nChunks nBuckets nPoints ⟨nChunks * nPoints, heap⟩
        = some sl
      ∧ sl.size = nChunks * nPoints
      ∧ ∀ i < nPoints, ∀ j < nChunks,
          sl.data (i * nChunks + j) = storedDigit scalars scalarSize w nBuckets i j := by
  refine ⟨_, sliceScalars_eq scalars scalarSize w nChunks nBuckets nPoints (nChunks * nPoints)
    heap (by rw [Nat.mul_comm]), rfl, ?_⟩
  intro i hi j hj
  exact sliced_entry scalars scalarSize w nChunks nBuckets nPoints heap i j hi hj

theorem rawValue_range (scalars : Nat → Nat) (scalarSize w i j : Nat) :
    0 ≤ rawValue scalars scalarSize w (calcBucketCount w) i j
      ∧ rawValue scalars scalarSize w (calcBucketCount w) i j ≤ 2 ^ w := by
  have hwin := getBucketIndex_lt scalars scalarSize w i j
  have hc := carryIn_range scalars scalarSize w (calcBucketCount w) i j
  have hcast : ((getBucketIndex scalars scalarSize w i j : Nat) : Int) < ((2 ^ w : Nat) : Int) :=
    Int.ofNat_lt.2 hwin
  rw [Nat.cast_pow, Nat.cast_ofNat] at hcast
  unfold rawValue
  omega

theorem two_pow_eq_bucketCount (w : Nat) (hw : 1 ≤ w) :
    ((2 : Int) ^ w) = (calcBucketCount w : Int) * 2 := by
  have := two_mul_calcBucketCount w hw
  have hc : ((2 * calcBucketCount w : Nat) : Int) = ((2 ^ w : Nat) : Int) := by rw [this]
  push_cast at hc
  omega

/-- A scalar whose top window is below `nBuckets - 1` leaves no carry after the last
chunk. -/
theorem carryIn_final_zero (scalars : Nat → Nat) (scalarSize w i : Nat)
    (hs : scalars i % 2 ^ scalarSize
      < 2 ^ (calcChunkCount scalarSize w * w - w) * (2 ^ (w - 1) - 1)) :
    carryIn scalars scalarSize w (calcBucketCount w) i (calcChunkCount scalarSize w) = 0 := by
  rcases Nat.eq_zero_or_pos (calcChunkCount scalarSize w) with h0 | h0
  · rw [h0]
    rfl
  · obtain ⟨k, hk⟩ : ∃ k, calcChunkCount scalarSize w = k + 1 :=
      ⟨calcChunkCount scalarSize w - 1, by omega⟩
    rw [hk] at hs ⊢
    have he : (k + 1) * w - w = k * w := by rw [Nat.succ_mul, Nat.add_sub_cancel]
    rw [he, Nat.mul_comm] at hs
    have hdiv : scalars i % 2 ^ scalarSize / 2 ^ (k * w) < 2 ^ (w - 1) - 1 :=
      (Nat.div_lt_iff_lt_mul (by positivity)).2 hs
    have hwin : getBucketIndex scalars scalarSize w i k < calcBucketCount w - 1 :=
      lt_of_le_of_lt (Nat.mod_le _ _) hdiv
    have hc := carryIn_range scalars scalarSize w (calcBucketCount w) i k
    rw [carryIn_succ]
    unfold rawValue
    rw [if_neg (by omega)]

/-! ### The three-point scenario -/

theorem carryIn_congr (s1 s2 : Nat → Nat) (sz1 sz2 w nBuckets i1 i2 : Nat)
    (h : ∀ j, getBucketIndex s1 sz1 w i1 j = getBucketIndex s2 sz2 w i2 j) :
    ∀ k, carryIn s1 sz1 w nBuckets i1 k = carryIn s2 sz2 w nBuckets i2 k := by
  intro k
  induction k with
  | zero => rfl
  | succ k ih =>
    rw [carryIn_succ, carryIn_succ]
    unfold rawValue
    rw [h k, ih]

theorem digit_congr (s1 s2 : Nat → Nat) (sz1 sz2 w nBuckets i1 i2 : Nat)
    (h : ∀ j, getBucketIndex s1 sz1 w i1 j = getBucketIndex s2 sz2 w i2 j) (j : Nat) :
    digit s1 sz1 w nBuckets i1 j = digit s2 sz2 w nBuckets i2 j := by
  unfold digit rawValue
  rw [h j, carryIn_congr s1 s2 sz1 sz2 w nBuckets i1 i2 h j]

theorem scenarioScalars_lt (i : Nat) : scenarioScalars i < 8 := by
  unfold scenarioScalars
  split_ifs <;> omega

theorem scenario_window (scalarSize i j : Nat) (hs : 3 ≤ scalarSize) :
    getBucketIndex scenarioScalars scalarSize 2 i j = getBucketIndex scenarioScalars 3 2 i j := by
  have h8 := scenarioScalars_lt i
  have hp : 2 ^ 3 ≤ 2 ^ scalarSize := Nat.pow_le_pow_right (by decide) hs
  have e1 : scenarioScalars i % 2 ^ scalarSize = scenarioScalars i :=
    Nat.mod_eq_of_lt (lt_of_lt_of_le h8 hp)
  have e2 : scenarioScalars i % 2 ^ 3 = scenarioScalars i := Nat.mod_eq_of_lt h8
  unfold getBucketIndex
  rw [e1, e2]

theorem scenario_window_high (i j : Nat) (hj : 2 ≤ j) :
    getBucketIndex scenarioScalars 3 2 i j = 0 := by
  have h8 := scenarioScalars_lt i
  have hp : 2 ^ (2 * 2) ≤ 2 ^ (j * 2) := Nat.pow_le_pow_right (by decide) (by omega)
  have e2 : scenarioScalars i % 2 ^ 3 = scenarioScalars i := Nat.mod_eq_of_lt h8
  unfold getBucketIndex
  rw [e2, Nat.div_eq_of_lt (lt_of_lt_of_le (by omega) hp), Nat.zero_mod]

theorem scenario_carry_high (i : Nat) (hi : i < 3) :
    ∀ j, 2 ≤ j → carryIn scenarioScalars 3 2 2 i j = 0 := by
  intro j hj
  induction j with
  | zero => omega
  | succ k ih =>
    rcases Nat.lt_or_ge k 2 with hk | hk
    · have hk1 : k = 1 := by omega
      subst hk1
      interval_cases i <;> decide
    · rw [carryIn_succ]
      unfold rawValue
      rw [ih hk, scenario_window_high i k hk]
      rfl

theorem scenario_stored (scalarSize i j : Nat) (hs : 3 ≤ scalarSize) (hi : i < 3) :
    storedDigit scenarioScalars scalarSize 2 2 i j = scenarioDigits i j := by
  have hst : storedDigit scenarioScalars scalarSize 2 2 i j
      = digit scenarioScalars scalarSize 2 2 i j :=
    storedDigit_eq_digit scenarioScalars scalarSize 2 i j (by decide) (by decide)
  rw [hst, digit_congr scenarioScalars scenarioScalars scalarSize 3 2 2 i i
    (fun k => scenario_window scalarSize i k hs) j]
  rcases Nat.lt_or_ge j 2 with hj | hj
  · interval_cases i <;> interval_cases j <;> decide
  · unfold digit rawValue
    rw [scenario_carry_high i hi j hj, scenario_window_high i j hj]
    unfold scenarioDigits
    rw [if_neg (show ¬ j = 0 by omega), if_neg (show ¬ j = 1 by omega)]
    decide

theorem scenario_chunks (scalarSize : Nat) (hs : 3 ≤ scalarSize) :
    2 ≤ calcChunkCount scalarSize 2 := by
  unfold calcChunkCount
  omega
end Lemmas

/-! ## The claims -/

section Claims

variable {G : Type} [AddCommGroup G]

/-- C3 (empty input): with `n = 0`, `run` writes the group identity into `r` and returns,
whatever the bases, the scalar buffer, `scalarSize`, the worker count and the environment
(window width, OpenMP or not, heap content). -/
theorem run_empty (env : Env G) (bases : Nat → G) (scalars : Nat → Nat)
    (scalarSize nThreads : Nat) :
    run env bases scalars scalarSize 0 nThreads = some 0 := by
  simp [run]

/-- C4 (singleton input): with `n = 1`, `run` writes exactly
`g.mulByScalar(bases[0], scalar_0, scalarSize)` into `r`, for every scalar, window width,
worker count and heap content; that value is the multiple of `bases[0]` by the
`scalarSize`-bit scalar. -/
theorem run_singleton (env : Env G) (bases : Nat → G) (scalars : Nat → Nat)
    (scalarSize nThreads : Nat) :
    run env bases scalars scalarSize 1 nThreads
        = some (mulByScalar (bases 0) (scalars 0) scalarSize)
      ∧ mulByScalar (bases 0) (scalars 0) scalarSize
        = (scalars 0 % 2 ^ scalarSize) • bases 0 := by
  refine ⟨?_, mulByScalar_eq _ _ _⟩
  simp [run]

/-- C5 (bucket-reduction identity): for `nBuckets ≥ 1` buckets held at offset `off` of an
array that contains them, the running double-sum loop of lines 96-104 ends with
`t = Σ_{k=1..nBuckets} k · B[k-1]`, where `B[k-1]` is the bucket at `off + (k-1)`. -/
theorem reduceBuckets_weighted_sum (m : Arr G) (off nBuckets : Nat) (h1 : 1 ≤ nBuckets)
    (hsz : off + nBuckets ≤ m.size) :
    reduceBuckets m off nBuckets
      = some (∑ k ∈ Finset.Icc 1 nBuckets, k • m.data (off + (k - 1))) := by
  rw [reduceBuckets_eq m off nBuckets h1 hsz, ← Nat.Ico_succ_right, Finset.range_eq_Ico]
  exact congrArg some
    (Finset.sum_Ico_add' (fun k => k • m.data (off + (k - 1))) 0 nBuckets 1)

/-- Witness of C5: three integer buckets `4, 5, 6` reduce to `1·4 + 2·5 + 3·6`. -/
theorem reduceBuckets_weighted_sum_witness :
    1 ≤ 3 ∧ 0 + 3 ≤ (Arr.mk 3 (fun p => (4 : Int) + p)).size
      ∧ reduceBuckets (Arr.mk 3 (fun p => (4 : Int) + p)) 0 3
        = some (∑ k ∈ Finset.Icc 1 3, k • (Arr.mk 3 (fun p => (4 : Int) + p)).data
            (0 + (k - 1))) :=
  ⟨by decide, by decide,
    reduceBuckets_weighted_sum (Arr.mk 3 (fun p => (4 : Int) + p)) 0 3 (by decide)
      (by decide)⟩

/-- C6 (chunk combination): for `nChunks ≥ 1` chunk results held in an array that contains
them and every window width `w`, the final loop of lines 109-116 ends with
`r = Σ_{j<nChunks} 2^(j·w) · chunks[j]`. -/
theorem combineChunks_horner (chunks : Arr G) (nChunks w : Nat) (h1 : 1 ≤ nChunks)
    (hsz : nChunks ≤ chunks.size) :
    combineChunks chunks nChunks w
      = some (∑ j ∈ Finset.range nChunks, 2 ^ (j * w) • chunks.data j) :=
  combineChunks_eq chunks nChunks w h1 hsz

/-- Witness of C6: three integer chunk results `1, 2, 3` with `w = 2`. -/
theorem combineChunks_horner_witness :
    1 ≤ 3 ∧ 3 ≤ (Arr.mk 3 (fun p => (1 : Int) + p)).size
      ∧ combineChunks (Arr.mk 3 (fun p => (1 : Int) + p)) 3 2
        = some (∑ j ∈ Finset.range 3, 2 ^ (j * 2) • (Arr.mk 3 (fun p => (1 : Int) + p)).data j) :=
  ⟨by decide, by decide,
    combineChunks_horner (Arr.mk 3 (fun p => (1 : Int) + p)) 3 2 (by decide) (by decide)⟩

/-- C8 (worker-count invariance): two runs on the same input and window width return the
same `r` (or both leave their arrays), whatever their worker-count arguments, OpenMP
settings, assignment of chunks to workers and heap contents, provided each run executes
every chunk on a worker whose number is below its `nThreads`. -/
theorem run_worker_invariant (env1 env2 : Env G) (bases : Nat → G) (scalars : Nat → Nat)
    (scalarSize n nThreads1 nThreads2 : Nat)
    (hw : env1.bitsPerChunk = env2.bitsPerChunk)
    (h1 : ∀ j < calcChunkCount scalarSize env1.bitsPerChunk,
      (if env1.openmp then env1.ompThreadNum j else 0) < threadCount env1 nThreads1)
    (h2 : ∀ j < calcChunkCount scalarSize env2.bitsPerChunk,
      (if env2.openmp then env2.ompThreadNum j else 0) < threadCount env2 nThreads2) :
    run env1 bases scalars scalarSize n nThreads1
      = run env2 bases scalars scalarSize n nThreads2 := by
  unfold run
  simp only
  by_cases hn0 : n = 0
  · rw [if_pos hn0, if_pos hn0]
  · rw [if_neg hn0, if_neg hn0]
    by_cases hn1 : n = 1
    · rw [if_pos hn1, if_pos hn1]
    · rw [if_neg hn1, if_neg hn1]
      by_cases hc : calcChunkCount scalarSize env1.bitsPerChunk = 0
      · rw [runWindowed_no_chunks env1 bases scalars scalarSize n _ hc,
          runWindowed_no_chunks env2 bases scalars scalarSize n _ (hw ▸ hc)]
      · have hc1 : 1 ≤ calcChunkCount scalarSize env1.bitsPerChunk := Nat.pos_of_ne_zero hc
        have hw1 : 1 ≤ env1.bitsPerChunk := by
          rcases Nat.eq_zero_or_pos env1.bitsPerChunk with h0 | h0
          · rw [h0, calcChunkCount_zero_width] at hc
            exact absurd rfl hc
          · exact h0
        rw [runWindowed_eq env1 bases scalars scalarSize n _ hw1 hc1 h1,
          runWindowed_eq env2 bases scalars scalarSize n _ (hw ▸ hw1) (hw ▸ hc1) h2, hw]

/-- C9 (iteration order of the accumulator): for every permutation `order` of the point
indices `0 .. n-1`, the accumulation loop of lines 85-94 run in that order leaves the same
bucket array as the loop run in the order `0 .. n-1`, from every initial bucket array (the
identity-initialised one included). -/
theorem accumulate_order_invariant (bases : Nat → G) (slicedScalars : Arr Int)
    (nChunks nPoints j off : Nat) (m : Arr G) (order : List Nat)
    (h : order.Perm (List.range nPoints)) :
    accumulateIn order bases slicedScalars nChunks j off m
      = accumulate bases slicedScalars nChunks nPoints j off m :=
  accumulateIn_perm bases slicedScalars nChunks j off order (List.range nPoints) h m

/-- C10 (bucket reset): the chunk result computed by the per-chunk body of lines 72-106
from a bucket matrix with arbitrary prior content is the one computed from a bucket matrix
of the same size that holds only identity elements. -/
theorem chunkBody_ignores_prior_content (bases : Nat → G) (slicedScalars : Arr Int)
    (nChunks bitsPerChunk nPoints numThread j size : Nat) (prior : Nat → G) :
    (chunkBody bases slicedScalars nChunks (calcBucketCount bitsPerChunk) nPoints numThread j
        ⟨size, prior⟩).map Prod.snd
      = (chunkBody bases slicedScalars nChunks (calcBucketCount bitsPerChunk) nPoints
          numThread j ⟨size, fun _ => 0⟩).map Prod.snd :=
  chunkBody_result_congr bases slicedScalars nChunks (calcBucketCount bitsPerChunk) nPoints
    numThread j size prior (fun _ => 0) (calcBucketCount_pos bitsPerChunk)

end Claims

/-- Witness of C8: an OpenMP run with two workers (worker count `0`, auto) and a
sequential run, on two 8-bit scalars with `w = 4`. -/
theorem run_worker_invariant_witness :
    (ompEnv 4).bitsPerChunk = (seqEnv 4).bitsPerChunk
      ∧ (∀ j < calcChunkCount 8 (ompEnv 4).bitsPerChunk,
          (if (ompEnv 4).openmp then (ompEnv 4).ompThreadNum j else 0)
            < threadCount (ompEnv 4) 0)
      ∧ (∀ j < calcChunkCount 8 (seqEnv 4).bitsPerChunk,
          (if (seqEnv 4).openmp then (seqEnv 4).ompThreadNum j else 0)
            < threadCount (seqEnv 4) 1)
      ∧ run (ompEnv 4) twoBases (twoScalars 100) 8 2 0
        = run (seqEnv 4) twoBases (twoScalars 100) 8 2 1 :=
  ⟨by decide, by decide, by decide,
    run_worker_invariant (ompEnv 4) (seqEnv 4) twoBases (twoScalars 100) 8 2 0 1 (by decide)
      (by decide) (by decide)⟩

/-- Witness of C9: three points with digits `1, -2, 1` accumulated in the order `2, 0, 1`. -/
theorem accumulate_order_invariant_witness :
    [2, 0, 1].Perm (List.range 3)
      ∧ accumulateIn [2, 0, 1] (fun i => (i : Int) + 1) (Arr.mk 3 (fun p => if p = 1 then -2 else 1))
          1 0 0 (Arr.mk 2 (fun _ => 0))
        = accumulate (fun i => (i : Int) + 1) (Arr.mk 3 (fun p => if p = 1 then -2 else 1))
          1 3 0 0 (Arr.mk 2 (fun _ => 0)) :=
  ⟨by decide,
    accumulate_order_invariant (fun i => (i : Int) + 1)
      (Arr.mk 3 (fun p => if p = 1 then -2 else 1)) 1 3 0 0 (Arr.mk 2 (fun _ => 0)) [2, 0, 1]
      (by decide)⟩

/-- C1 (correctness of `run`) fails on the code: for the two 8-bit scalars `255, 0`, the
points `1, 0` of the group of integers and `w = 4`, `run` returns `-1` while the naive
reference `Σ_i scalar_i · point_i` is `255`; the carry left after the last chunk is
dropped.  The `n = 1` branch returns `255` for the same first point and scalar. -/
theorem run_differs_from_naive :
    run (seqEnv 4) twoBases (twoScalars 255) 8 2 1 = some (-1)
      ∧ naiveMSM twoBases (twoScalars 255) 8 2 = 255
      ∧ run (seqEnv 4) twoBases (twoScalars 255) 8 1 1 = some 255 := by
  decide

/-- C2 (digit reconstruction) fails on the code: for the 8-bit scalar `255` and `w = 4`
(`nChunks = 2`, `nBuckets = 8`) the slicing loop stores the digits `-1, 0`, whose weighted
sum `-1 + 0·2^4` is `-1`, not `255`. -/
theorem sliced_digits_lose_carry :
    (sliceScalars (twoScalars 255) 8 4 (calcChunkCount 8 4) (calcBucketCount 4) 2
        ⟨calcChunkCount 8 4 * 2, fun _ => 0⟩).map
      (fun sl => (sl.data 0, sl.data 1, sl.data 0 + sl.data 1 * 2 ^ 4)) = some (-1, 0, -1)
      ∧ twoScalars 255 0 = 255 := by
  decide

/-- C7 (window-width invariance) fails on the code: for the two 8-bit scalars `127, 0` and
the points `1, 0` of the group of integers, `run` returns `-129` with `w = 4` and `127`
with `w = 8`. -/
theorem run_depends_on_window_width :
    run (seqEnv 4) twoBases (twoScalars 127) 8 2 1 = some (-129)
      ∧ run (seqEnv 8) twoBases (twoScalars 127) 8 2 1 = some 127 := by
  set_option maxRecDepth 1000000 in decide


/-! ## The claims on the digits and on the whole pipeline -/

section ClaimsDigits

variable {G : Type} [AddCommGroup G]

/-- C11 (digit range) fails as stated: for the 8-bit scalar `8` and `w = 4`
(`nBuckets = 8`) the slicing loop stores the digit `-8 = -nBuckets` for chunk 0, which is
not above `-nBuckets`. -/
theorem stored_digit_reaches_lower_end :
    (sliceScalars (twoScalars 8) 8 4 (calcChunkCount 8 4) (calcBucketCount 4) 2
        ⟨calcChunkCount 8 4 * 2, fun _ => 0⟩).map (fun sl => sl.data 0) = some (-8)
      ∧ ¬ (-(calcBucketCount 4 : Int) < -8) := by
  decide

/-- C11 (digit range), amended: for every window width `w ≥ 1`, every scalar buffer and
every chunk, the slicing loop succeeds and the digit it stores lies in the half-open range
`[-nBuckets, nBuckets)`, where `nBuckets = 2^(w-1)`. -/
theorem stored_digit_range (scalars : Nat → Nat) (scalarSize w nPoints : Nat)
    (heap : Nat → Int) (hw : 1 ≤ w) :
    ∃ sl, sliceScalars scalars scalarSize w (calcChunkCount scalarSize w) (calcBucketCount w)
          nPoints ⟨calcChunkCount scalarSize w * nPoints, heap⟩ = some sl
      ∧ ∀ i < nPoints, ∀ j < calcChunkCount scalarSize w,
          -(calcBucketCount w : Int) ≤ sl.data (i * calcChunkCount scalarSize w + j)
            ∧ sl.data (i * calcChunkCount scalarSize w + j) < (calcBucketCount w : Int) := by
  obtain ⟨sl, hsl, _, hent⟩ := sliceScalars_entries scalars scalarSize w
    (calcChunkCount scalarSize w) (calcBucketCount w) nPoints heap
  refine ⟨sl, hsl, fun i hi j hj => ?_⟩
  rw [hent i hi j hj]
  exact storedDigit_range scalars scalarSize w i j hw

/-- Witness of C11 (amended): two 8-bit scalars with `w = 4`. -/
theorem stored_digit_range_witness :
    1 ≤ 4
      ∧ ∃ sl, sliceScalars (twoScalars 8) 8 4 (calcChunkCount 8 4) (calcBucketCount 4)
            2 ⟨calcChunkCount 8 4 * 2, fun _ => 0⟩ = some sl
        ∧ ∀ i < 2, ∀ j < calcChunkCount 8 4,
            -(calcBucketCount 4 : Int) ≤ sl.data (i * calcChunkCount 8 4 + j)
              ∧ sl.data (i * calcChunkCount 8 4 + j) < (calcBucketCount 4 : Int) :=
  ⟨by decide, stored_digit_range (twoScalars 8) 8 4 2 (fun _ => 0) (by decide)⟩

/-- C12 (digit magnitude and in-bounds bucket access): for every window width `w ≥ 1` the
slicing loop succeeds, every digit `d` it stores is `0` or has `1 ≤ |d| ≤ nBuckets`, the
bucket index the accumulator uses (`d-1` for `d > 0`, `-d-1` for `d < 0`) lies in
`[0, nBuckets)`, and the accumulation loop of every chunk, on every worker slot inside the
bucket matrix, never leaves its arrays. -/
theorem bucket_access_in_bounds (bases : Nat → G) (scalars : Nat → Nat)
    (scalarSize w nPoints : Nat) (heap : Nat → Int) (hw : 1 ≤ w) :
    ∃ sl, sliceScalars scalars scalarSize w (calcChunkCount scalarSize w) (calcBucketCount w)
          nPoints ⟨calcChunkCount scalarSize w * nPoints, heap⟩ = some sl
      ∧ (∀ i < nPoints, ∀ j < calcChunkCount scalarSize w,
          (sl.data (i * calcChunkCount scalarSize w + j) = 0
            ∨ (1 ≤ |sl.data (i * calcChunkCount scalarSize w + j)|
              ∧ |sl.data (i * calcChunkCount scalarSize w + j)| ≤ (calcBucketCount w : Int)))
          ∧ (0 < sl.data (i * calcChunkCount scalarSize w + j) →
              0 ≤ sl.data (i * calcChunkCount scalarSize w + j) - 1
                ∧ sl.data (i * calcChunkCount scalarSize w + j) - 1 < (calcBucketCount w : Int))
          ∧ (sl.data (i * calcChunkCount scalarSize w + j) < 0 →
              0 ≤ -sl.data (i * calcChunkCount scalarSize w + j) - 1
                ∧ -sl.data (i * calcChunkCount scalarSize w + j) - 1
                  < (calcBucketCount w : Int)))
      ∧ (∀ j < calcChunkCount scalarSize w, ∀ (numThread : Nat) (m : Arr G),
          numThread * calcBucketCount w + calcBucketCount w ≤ m.size →
          (accumulate bases sl (calcChunkCount scalarSize w) nPoints j
            (numThread * calcBucketCount w) m).isSome = true) := by
  obtain ⟨sl, hsl, hsize, hent⟩ := sliceScalars_entries scalars scalarSize w
    (calcChunkCount scalarSize w) (calcBucketCount w) nPoints heap
  have hrange : ∀ i < nPoints, ∀ j < calcChunkCount scalarSize w,
      -(calcBucketCount w : Int) ≤ sl.data (i * calcChunkCount scalarSize w + j)
        ∧ sl.data (i * calcChunkCount scalarSize w + j) < (calcBucketCount w : Int) := by
    intro i hi j hj
    rw [hent i hi j hj]
    exact storedDigit_range scalars scalarSize w i j hw
  refine ⟨sl, hsl, fun i hi j hj => ?_, fun j hj numThread m hm => ?_⟩
  · have hr := hrange i hi j hj
    refine ⟨?_, fun h => by omega, fun h => by omega⟩
    by_cases h0 : sl.data (i * calcChunkCount scalarSize w + j) = 0
    · exact Or.inl h0
    · exact Or.inr ⟨Int.one_le_abs h0, abs_le.2 ⟨hr.1, by omega⟩⟩
  · unfold accumulate
    rw [accumulateIn_eq bases sl (calcChunkCount scalarSize w) j
      (numThread * calcBucketCount w) (List.range nPoints) m]
    · rfl
    · intro i hi
      have hi2 := List.mem_range.1 hi
      have hr := hrange i hi2 j hj
      refine ⟨?_, fun h => by omega, fun h => by omega⟩
      rw [hsize]
      have : (i + 1) * calcChunkCount scalarSize w ≤ nPoints * calcChunkCount scalarSize w :=
        Nat.mul_le_mul_right _ hi2
      rw [Nat.succ_mul] at this
      rw [Nat.mul_comm (calcChunkCount scalarSize w) nPoints]
      omega

/-- C13 (carry invariant) fails as stated: `bucketIndex` is a 32-bit `int`, so for the
64-bit scalar `2^64 - 1` and `w = 32` (`nBuckets = 2^31`) the carry out of chunk 0 is `1`,
the window of chunk 1 is `2^32 - 1`, and the raw value that line 57 computes for chunk 1 is
`0`, not `2^32 - 1 + 1`; the carry out of chunk 1 is then `0`. -/
theorem raw_value_wraps_wide_window :
    ((List.range 1).foldlM
        (sliceStep (twoScalars 18446744073709551615) 64 32 (calcChunkCount 64 32)
          (calcBucketCount 32) 0) (⟨calcChunkCount 64 32 * 2, fun _ => 0⟩, 0)).map Prod.snd
      = some 1
    ∧ getBucketIndex (twoScalars 18446744073709551615) 64 32 0 1 = 4294967295
    ∧ rawBucketIndex (getBucketIndex (twoScalars 18446744073709551615) 64 32 0 1) 1 = 0
    ∧ ((List.range 2).foldlM
        (sliceStep (twoScalars 18446744073709551615) 64 32 (calcChunkCount 64 32)
          (calcBucketCount 32) 0) (⟨calcChunkCount 64 32 * 2, fun _ => 0⟩, 0)).map Prod.snd
      = some 0 := by
  decide

/-- C13 (carry invariant), amended: for every scalar and every window width, the inner
slicing loop of a point starts from carry `0` (`slicePoint`); after `k` chunks its carry
variable holds `codeCarry k`, which is `0` at the start and `0` or `1` afterwards; the carry
out of chunk `j` is `1` exactly when the raw value of chunk `j`, read as a `uint64_t`,
reaches `nBuckets`; the raw value of chunk `j+1` is its own window plus that carry, reduced
to the 32-bit `int`; the digit stored for chunk `j` is computed from that raw value; and
for window widths up to 30 no reduction takes place: the raw value of every chunk is the
integer sum of its window and the incoming carry. -/
theorem slicer_carry_invariant (scalars : Nat → Nat) (scalarSize w nChunks nBuckets i k : Nat)
    (sz : Nat) (dat : Nat → Int) (h : i * nChunks + k ≤ sz) :
    slicePoint scalars scalarSize w nChunks nBuckets ⟨sz, dat⟩ i
        = ((List.range nChunks).foldlM (sliceStep scalars scalarSize w nChunks nBuckets i)
            (⟨sz, dat⟩, 0)).map Prod.fst
      ∧ (∃ sl, (List.range k).foldlM (sliceStep scalars scalarSize w nChunks nBuckets i)
            (⟨sz, dat⟩, 0) = some (sl, codeCarry scalars scalarSize w nBuckets i k)
          ∧ ∀ j < k, sl.data (i * nChunks + j)
              = toInt16
                (if toUInt64 (codeRaw scalars scalarSize w nBuckets i j) ≥ (nBuckets : Int) then
                  toInt32 (toUInt64 (toUInt64 (codeRaw scalars scalarSize w nBuckets i j)
                    - (nBuckets : Int) * 2))
                else codeRaw scalars scalarSize w nBuckets i j))
      ∧ codeCarry scalars scalarSize w nBuckets i 0 = 0
      ∧ (∀ j, codeCarry scalars scalarSize w nBuckets i j = 0
          ∨ codeCarry scalars scalarSize w nBuckets i j = 1)
      ∧ (∀ j, codeCarry scalars scalarSize w nBuckets i (j + 1)
          = if toUInt64 (codeRaw scalars scalarSize w nBuckets i j) ≥ (nBuckets : Int) then 1
            else 0)
      ∧ (∀ j, codeRaw scalars scalarSize w nBuckets i (j + 1)
          = toInt32 ((getBucketIndex scalars scalarSize w i (j + 1) : Int)
            + codeCarry scalars scalarSize w nBuckets i (j + 1)))
      ∧ (w ≤ 30 → ∀ j, codeRaw scalars scalarSize w nBuckets i j
          = (getBucketIndex scalars scalarSize w i j : Int)
            + codeCarry scalars scalarSize w nBuckets i j) := by
  refine ⟨rfl, ⟨_, slice_loop scalars scalarSize w nChunks nBuckets i sz dat k h, ?_⟩, rfl,
    fun j => codeCarry_range scalars scalarSize w nBuckets i j, fun j => rfl, fun j => rfl,
    fun hw j => rawBucketIndex_exact scalars scalarSize w i j _ hw
      (codeCarry_range scalars scalarSize w nBuckets i j)⟩
  intro j hj
  simp only
  rw [if_pos ⟨by omega, by omega⟩, Nat.add_sub_cancel_left]
  rfl

/-- Witness of C13 (amended): the first two chunks of the 8-bit scalar `255` with `w = 4`. -/
theorem slicer_carry_invariant_witness :
    0 * 2 + 2 ≤ 4
      ∧ ∃ sl, (List.range 2).foldlM (sliceStep (twoScalars 255) 8 4 2 8 0)
            (⟨4, fun _ => 0⟩, 0) = some (sl, codeCarry (twoScalars 255) 8 4 8 0 2)
          ∧ ∀ j < 2, sl.data (0 * 2 + j)
              = toInt16
                (if toUInt64 (codeRaw (twoScalars 255) 8 4 8 0 j) ≥ ((8 : Nat) : Int) then
                  toInt32 (toUInt64 (toUInt64 (codeRaw (twoScalars 255) 8 4 8 0 j)
                    - ((8 : Nat) : Int) * 2))
                else codeRaw (twoScalars 255) 8 4 8 0 j) :=
  ⟨by decide,
    (slicer_carry_invariant (twoScalars 255) 8 4 2 8 0 2 4 (fun _ => 0) (by decide)).2.1⟩

/-- C14 (zero digit iff zero raw value) fails as stated: for the 8-bit scalar `255` and
`w = 4`, chunk 1 has raw value `15 + 1 = 16 = 2^w`, outside `[0, 2^w)`, and the digit stored
for it is `0`; for the 17-bit scalar `65536` and `w = 17`, chunk 0 has raw value `65536`,
neither `0` nor `2^17`, and the `int16_t` digit stored for it is `0`. -/
theorem zero_digit_with_nonzero_raw :
    ((sliceScalars (twoScalars 255) 8 4 (calcChunkCount 8 4) (calcBucketCount 4) 2
        ⟨calcChunkCount 8 4 * 2, fun _ => 0⟩).map (fun sl => sl.data 1) = some 0
      ∧ rawValue (twoScalars 255) 8 4 (calcBucketCount 4) 0 1 = 16)
    ∧ ((sliceScalars (twoScalars 65536) 17 17 (calcChunkCount 17 17) (calcBucketCount 17) 2
        ⟨calcChunkCount 17 17 * 2, fun _ => 0⟩).map (fun sl => sl.data 0) = some 0
      ∧ rawValue (twoScalars 65536) 17 17 (calcBucketCount 17) 0 0 = 65536) := by
  decide

/-- C14 (zero digit), amended: for every window width `1 ≤ w ≤ 16`, every scalar and every
chunk, the raw value `v` (window plus incoming carry) lies in `[0, 2^w]`, and the slicing
loop stores the digit `0` if and only if `v = 0` or `v = 2^w`. -/
theorem zero_digit_iff (scalars : Nat → Nat) (scalarSize w nPoints : Nat)
    (heap : Nat → Int) (hw : 1 ≤ w) (hw16 : w ≤ 16) :
    ∃ sl, sliceScalars scalars scalarSize w (calcChunkCount scalarSize w) (calcBucketCount w)
          nPoints ⟨calcChunkCount scalarSize w * nPoints, heap⟩ = some sl
      ∧ ∀ i < nPoints, ∀ j < calcChunkCount scalarSize w,
          0 ≤ rawValue scalars scalarSize w (calcBucketCount w) i j
          ∧ rawValue scalars scalarSize w (calcBucketCount w) i j ≤ 2 ^ w
          ∧ (sl.data (i * calcChunkCount scalarSize w + j) = 0
              ↔ rawValue scalars scalarSize w (calcBucketCount w) i j = 0
                ∨ rawValue scalars scalarSize w (calcBucketCount w) i j = 2 ^ w) := by
  obtain ⟨sl, hsl, _, hent⟩ := sliceScalars_entries scalars scalarSize w
    (calcChunkCount scalarSize w) (calcBucketCount w) nPoints heap
  refine ⟨sl, hsl, fun i hi j hj => ?_⟩
  have hr := rawValue_range scalars scalarSize w i j
  have h2 := two_pow_eq_bucketCount w hw
  have hpos := calcBucketCount_pos w
  refine ⟨hr.1, hr.2, ?_⟩
  rw [hent i hi j hj, storedDigit_eq_digit scalars scalarSize w i j hw hw16, h2]
  rw [h2] at hr
  unfold digit
  split_ifs with h <;> omega

/-- Witness of C14 (amended): two 8-bit scalars with `w = 4`. -/
theorem zero_digit_iff_witness :
    1 ≤ 4 ∧ 4 ≤ 16
      ∧ ∃ sl, sliceScalars (twoScalars 255) 8 4 (calcChunkCount 8 4) (calcBucketCount 4)
            2 ⟨calcChunkCount 8 4 * 2, fun _ => 0⟩ = some sl
        ∧ ∀ i < 2, ∀ j < calcChunkCount 8 4,
            0 ≤ rawValue (twoScalars 255) 8 4 (calcBucketCount 4) i j
            ∧ rawValue (twoScalars 255) 8 4 (calcBucketCount 4) i j ≤ 2 ^ 4
            ∧ (sl.data (i * calcChunkCount 8 4 + j) = 0
                ↔ rawValue (twoScalars 255) 8 4 (calcBucketCount 4) i j = 0
                  ∨ rawValue (twoScalars 255) 8 4 (calcBucketCount 4) i j = 2 ^ 4) :=
  ⟨by decide, by decide,
    zero_digit_iff (twoScalars 255) 8 4 2 (fun _ => 0) (by decide) (by decide)⟩

/-- Witness of C12: two 8-bit scalars with `w = 4` over the group of integers. -/
theorem bucket_access_in_bounds_witness :
    1 ≤ 4
      ∧ ∃ sl, sliceScalars (twoScalars 255) 8 4 (calcChunkCount 8 4) (calcBucketCount 4)
            2 ⟨calcChunkCount 8 4 * 2, fun _ => 0⟩ = some sl
        ∧ ∀ j < calcChunkCount 8 4, ∀ (numThread : Nat) (m : Arr Int),
            numThread * calcBucketCount 4 + calcBucketCount 4 ≤ m.size →
            (accumulate twoBases sl (calcChunkCount 8 4) 2 j
              (numThread * calcBucketCount 4) m).isSome = true := by
  obtain ⟨sl, h1, _, h3⟩ :=
    bucket_access_in_bounds twoBases (twoScalars 255) 8 4 2 (fun _ => 0) (by decide)
  exact ⟨by decide, sl, h1, h3⟩

/-- C15 (the `n = 1` bypass as a pure optimisation) fails on the code: for the single
point `1` of the group of integers with the 8-bit scalar `255` and `w = 4`, the windowed
pipeline of lines 43-116 computes `-1`, while the `n = 1` branch returns
`mulByScalar 1 255 = 255`. -/
theorem windowed_differs_from_bypass :
    runWindowed (seqEnv 4) twoBases (twoScalars 255) 8 1 1 = some (-1)
      ∧ run (seqEnv 4) twoBases (twoScalars 255) 8 1 1 = some 255
      ∧ mulByScalar (twoBases 0) (twoScalars 255 0) 8 = 255 := by
  decide

/-- C16 (concrete scenario): on three points with the scalars `2, 5, 1`, window width
`w = 2` and any `scalarSize ≥ 3`, `run` returns `2·P1 + 5·P2 + 1·P3` (which is `8·G` when
the three points are the same `G`), and the digit rows stored by the slicing loop are
`(-2, 1, 0, ...)`, `(1, 1, 0, ...)`, `(1, 0, 0, ...)`. -/
theorem run_scenario (env : Env G) (bases : Nat → G) (scalarSize nThreads : Nat)
    (hw : env.bitsPerChunk = 2) (hs : 3 ≤ scalarSize)
    (hsched : ∀ j < calcChunkCount scalarSize 2,
      (if env.openmp then env.ompThreadNum j else 0) < threadCount env nThreads) :
    run env bases scenarioScalars scalarSize 3 nThreads
        = some (2 • bases 0 + 5 • bases 1 + bases 2)
      ∧ (bases 1 = bases 0 → bases 2 = bases 0 →
          run env bases scenarioScalars scalarSize 3 nThreads = some (8 • bases 0))
      ∧ ∃ sl, sliceScalars scenarioScalars scalarSize 2 (calcChunkCount scalarSize 2)
            (calcBucketCount 2) 3 ⟨calcChunkCount scalarSize 2 * 3, env.heapSliced⟩ = some sl
          ∧ ∀ i < 3, ∀ j < calcChunkCount scalarSize 2,
              sl.data (i * calcChunkCount scalarSize 2 + j) = scenarioDigits i j := by
  have hnc := scenario_chunks scalarSize hs
  have hcarry : ∀ i < 3, carryIn scenarioScalars scalarSize 2 (calcBucketCount 2) i
      (calcChunkCount scalarSize 2) = 0 := by
    intro i hi
    rw [carryIn_congr scenarioScalars scenarioScalars scalarSize 3 2 (calcBucketCount 2) i i
      (fun k => scenario_window scalarSize i k hs)]
    exact scenario_carry_high i hi _ hnc
  have hp : 2 ^ 3 ≤ 2 ^ scalarSize := Nat.pow_le_pow_right (show 0 < 2 by decide) hs
  have hmod : ∀ i, scenarioScalars i % 2 ^ scalarSize = scenarioScalars i := by
    intro i
    have h8 := scenarioScalars_lt i
    exact Nat.mod_eq_of_lt (by omega)
  have hrun : run env bases scenarioScalars scalarSize 3 nThreads
      = some (2 • bases 0 + 5 • bases 1 + bases 2) := by
    have hr : run env bases scenarioScalars scalarSize 3 nThreads
        = runWindowed env bases scenarioScalars scalarSize 3 (threadCount env nThreads) := rfl
    have hw1 : 1 ≤ env.bitsPerChunk := by rw [hw]; decide
    have hw16 : env.bitsPerChunk ≤ 16 := by rw [hw]; decide
    have hc1 : 1 ≤ calcChunkCount scalarSize env.bitsPerChunk := by rw [hw]; omega
    have hsc : ∀ j < calcChunkCount scalarSize env.bitsPerChunk,
        (if env.openmp then env.ompThreadNum j else 0) < threadCount env nThreads := by
      rw [hw]; exact hsched
    rw [hr, runWindowed_eq_scalars env bases scenarioScalars scalarSize 3
      (threadCount env nThreads) hw1 hw16 hc1 hsc, hw]
    simp only [Finset.sum_range_succ, Finset.range_zero, Finset.sum_empty, zero_add,
      hcarry 0 (by decide), hcarry 1 (by decide), hcarry 2 (by decide), hmod, zero_mul,
      sub_zero, natCast_zsmul]
    have e0 : scenarioScalars 0 = 2 := rfl
    have e1 : scenarioScalars 1 = 5 := rfl
    have e2 : scenarioScalars 2 = 1 := rfl
    rw [e0, e1, e2, one_smul]
  refine ⟨hrun, ?_, ?_⟩
  · intro h1 h2
    rw [hrun, h1, h2]
    congr 1
    abel
  · obtain ⟨sl, hsl, _, hent⟩ := sliceScalars_entries scenarioScalars scalarSize 2
      (calcChunkCount scalarSize 2) (calcBucketCount 2) 3 env.heapSliced
    refine ⟨sl, hsl, fun i hi j hj => ?_⟩
    rw [hent i hi j hj]
    exact scenario_stored scalarSize i j hs hi

/-- Witness of C16: the sequential build with `w = 2` and 3-bit scalars on the points
`10, 11, 12` of the group of integers, `2·10 + 5·11 + 12 = 87`. -/
theorem run_scenario_witness :
    (seqEnv 2).bitsPerChunk = 2 ∧ 3 ≤ 3
      ∧ (∀ j < calcChunkCount 3 2,
          (if (seqEnv 2).openmp then (seqEnv 2).ompThreadNum j else 0) < threadCount (seqEnv 2) 1)
      ∧ run (seqEnv 2) (fun i => (i : Int) + 10) scenarioScalars 3 3 1 = some 87 :=
  ⟨by decide, by decide, by decide,
    (run_scenario (seqEnv 2) (fun i => (i : Int) + 10) 3 1 (by decide) (by decide)
      (by decide)).1.trans (by decide)⟩

/-- C17 (result with the dropped final carry) fails as stated: with `w = 17` the
`int16_t` store changes a digit, so for the 17-bit scalars `32768, 0` and the points `1, 0`
of the group of integers `run` returns `-32768`, while both final carries are `0` and the
claimed value is `32768`; and with `scalarSize = 0` there is no chunk and `run` reads
`chunks[nChunks - 1]` outside the array. -/
theorem run_wraps_wide_digit :
    run (seqEnv 17) twoBases (twoScalars 32768) 17 2 1 = some (-32768)
      ∧ ∑ i ∈ Finset.range 2,
          (((twoScalars 32768 i % 2 ^ 17 : Nat) : Int)
            - carryIn (twoScalars 32768) 17 17 (calcBucketCount 17) i (calcChunkCount 17 17)
              * 2 ^ (calcChunkCount 17 17 * 17)) • twoBases i = 32768
      ∧ run (seqEnv 4) twoBases (twoScalars 0) 0 2 1 = none := by
  refine ⟨?_, by decide, by decide⟩
  have h := runWindowed_eq_sum (seqEnv 17) twoBases (twoScalars 32768) 17 2 1 (by decide)
    (by decide) (by decide)
  have hr : run (seqEnv 17) twoBases (twoScalars 32768) 17 2 1
      = runWindowed (seqEnv 17) twoBases (twoScalars 32768) 17 2 1 := rfl
  rw [hr, h]
  decide

/-- C17 (result with the dropped final carry), amended: for `n ≥ 2`, a window width
`1 ≤ w ≤ 16`, `scalarSize ≥ 1` and worker numbers below `nThreads`, `run` returns
`Σ_i (scalar_i - c_i·2^(nChunks·w)) · point_i`, where `c_i`, `0` or `1`, is the carry left
after the last chunk of scalar `i`; it returns `Σ_i scalar_i · point_i` when every `c_i` is
`0`, and in particular when every scalar is below `2^(nChunks·w - w) · (2^(w-1) - 1)`.
`scalar_i` is the value of the `scalarSize` bits of scalar `i`. -/
theorem run_with_dropped_carry (env : Env G) (bases : Nat → G) (scalars : Nat → Nat)
    (scalarSize n nThreads : Nat) (hn : 2 ≤ n) (hw : 1 ≤ env.bitsPerChunk)
    (hw16 : env.bitsPerChunk ≤ 16) (hs : 1 ≤ scalarSize)
    (hsched : ∀ j < calcChunkCount scalarSize env.bitsPerChunk,
      (if env.openmp then env.ompThreadNum j else 0) < threadCount env nThreads) :
    (∀ i, carryIn scalars scalarSize env.bitsPerChunk (calcBucketCount env.bitsPerChunk) i
          (calcChunkCount scalarSize env.bitsPerChunk) = 0
        ∨ carryIn scalars scalarSize env.bitsPerChunk (calcBucketCount env.bitsPerChunk) i
          (calcChunkCount scalarSize env.bitsPerChunk) = 1)
      ∧ run env bases scalars scalarSize n nThreads
        = some (∑ i ∈ Finset.range n,
            (((scalars i % 2 ^ scalarSize : Nat) : Int)
              - carryIn scalars scalarSize env.bitsPerChunk (calcBucketCount env.bitsPerChunk) i
                  (calcChunkCount scalarSize env.bitsPerChunk)
                * 2 ^ (calcChunkCount scalarSize env.bitsPerChunk * env.bitsPerChunk))
              • bases i)
      ∧ ((∀ i < n, carryIn scalars scalarSize env.bitsPerChunk
            (calcBucketCount env.bitsPerChunk) i
            (calcChunkCount scalarSize env.bitsPerChunk) = 0) →
          run env bases scalars scalarSize n nThreads
            = some (∑ i ∈ Finset.range n, (scalars i % 2 ^ scalarSize) • bases i))
      ∧ ((∀ i < n, scalars i % 2 ^ scalarSize
            < 2 ^ (calcChunkCount scalarSize env.bitsPerChunk * env.bitsPerChunk
                - env.bitsPerChunk) * (2 ^ (env.bitsPerChunk - 1) - 1)) →
          run env bases scalars scalarSize n nThreads
            = some (∑ i ∈ Finset.range n, (scalars i % 2 ^ scalarSize) • bases i)) := by
  have hr : run env bases scalars scalarSize n nThreads
      = runWindowed env bases scalars scalarSize n (threadCount env nThreads) := by
    unfold run
    simp only
    rw [if_neg (by omega), if_neg (by omega)]
  have hmain := runWindowed_eq_scalars env bases scalars scalarSize n (threadCount env nThreads)
    hw hw16 (calcChunkCount_pos scalarSize env.bitsPerChunk hw hs) hsched
  have hzero : (∀ i < n, carryIn scalars scalarSize env.bitsPerChunk
        (calcBucketCount env.bitsPerChunk) i
        (calcChunkCount scalarSize env.bitsPerChunk) = 0) →
      run env bases scalars scalarSize n nThreads
        = some (∑ i ∈ Finset.range n, (scalars i % 2 ^ scalarSize) • bases i) := by
    intro hc
    rw [hr, hmain]
    refine congrArg some (Finset.sum_congr rfl (fun i hi => ?_))
    rw [hc i (Finset.mem_range.1 hi), zero_mul, sub_zero, natCast_zsmul]
  refine ⟨fun i => carryIn_range _ _ _ _ _ _, hr.trans hmain, hzero, fun hb => hzero ?_⟩
  intro i hi
  exact carryIn_final_zero scalars scalarSize env.bitsPerChunk i (hb i hi)

/-- Witness of C17 (amended): the sequential build with `w = 4` on the 8-bit scalars
`255, 0`. -/
theorem run_with_dropped_carry_witness :
    2 ≤ 2 ∧ 1 ≤ (seqEnv 4).bitsPerChunk ∧ (seqEnv 4).bitsPerChunk ≤ 16 ∧ 1 ≤ 8
      ∧ (∀ j < calcChunkCount 8 (seqEnv 4).bitsPerChunk,
          (if (seqEnv 4).openmp then (seqEnv 4).ompThreadNum j else 0) < threadCount (seqEnv 4) 1)
      ∧ run (seqEnv 4) twoBases (twoScalars 255) 8 2 1
        = some (∑ i ∈ Finset.range 2,
            (((twoScalars 255 i % 2 ^ 8 : Nat) : Int)
              - carryIn (twoScalars 255) 8 (seqEnv 4).bitsPerChunk
                  (calcBucketCount (seqEnv 4).bitsPerChunk) i
                  (calcChunkCount 8 (seqEnv 4).bitsPerChunk)
                * 2 ^ (calcChunkCount 8 (seqEnv 4).bitsPerChunk * (seqEnv 4).bitsPerChunk))
              • twoBases i) :=
  ⟨by decide, by decide, by decide, by decide, by decide,
    (run_with_dropped_carry (seqEnv 4) twoBases (twoScalars 255) 8 2 1 (by decide) (by decide)
      (by decide) (by decide) (by decide)).2.1⟩

/-- C18 (digit sum with carry-out) fails as stated: for the 17-bit scalar `32768` and
`w = 17` (`nChunks = 1`) the slicing loop stores the digit `-32768` and ends with carry `0`,
so the sum is `-32768`, not `32768`. -/
theorem wide_digit_sum_differs :
    ((List.range (calcChunkCount 17 17)).foldlM
        (sliceStep (twoScalars 32768) 17 17 (calcChunkCount 17 17) (calcBucketCount 17) 0)
        (⟨calcChunkCount 17 17 * 2, fun _ => 0⟩, 0)).map
      (fun st => (st.1.data 0, st.2, st.1.data 0 * 2 ^ (0 * 17) + st.2 * 2 ^ (1 * 17)))
      = some (-32768, 0, -32768)
      ∧ twoScalars 32768 0 % 2 ^ 17 = 32768 := by
  decide

/-- C18 (digit sum with carry-out), amended: for every window width `1 ≤ w ≤ 16` and every
scalar `i`, the inner slicing loop (started from carry `0` on an array that holds row `i`)
ends with a carry `c`, `0` or `1`, and stored digits such that
`Σ_{j<nChunks} digit(j)·2^(j·w) + c·2^(nChunks·w)` is the value of the `scalarSize` bits of
the scalar; `c = 1` exactly when there is a last chunk and its raw value is at least
`nBuckets`. -/
theorem digit_sum_with_carry (scalars : Nat → Nat) (scalarSize w i sz : Nat)
    (dat : Nat → Int) (hw : 1 ≤ w) (hw16 : w ≤ 16)
    (h : i * calcChunkCount scalarSize w + calcChunkCount scalarSize w ≤ sz) :
    ∃ sl c, (List.range (calcChunkCount scalarSize w)).foldlM
          (sliceStep scalars scalarSize w (calcChunkCount scalarSize w) (calcBucketCount w) i)
          (⟨sz, dat⟩, 0) = some (sl, c)
      ∧ (c = 0 ∨ c = 1)
      ∧ ∑ j ∈ Finset.range (calcChunkCount scalarSize w),
            sl.data (i * calcChunkCount scalarSize w + j) * 2 ^ (j * w)
          + c * 2 ^ (calcChunkCount scalarSize w * w)
        = ((scalars i % 2 ^ scalarSize : Nat) : Int)
      ∧ (c = 1 ↔ 1 ≤ calcChunkCount scalarSize w
          ∧ rawValue scalars scalarSize w (calcBucketCount w) i
              (calcChunkCount scalarSize w - 1) ≥ (calcBucketCount w : Int)) := by
  have hcc := codeCarry_eq_carryIn scalars scalarSize w (calcBucketCount w) i
    (show w ≤ 30 by omega) (calcChunkCount scalarSize w)
  have hloop := slice_loop scalars scalarSize w (calcChunkCount scalarSize w)
    (calcBucketCount w) i sz dat (calcChunkCount scalarSize w) h
  rw [hcc] at hloop
  refine ⟨_, _, hloop, carryIn_range _ _ _ _ _ _, ?_, ?_⟩
  · have hsum := digit_sum_final scalars scalarSize w i hw
    have hcongr : ∑ j ∈ Finset.range (calcChunkCount scalarSize w),
          (if i * calcChunkCount scalarSize w ≤ i * calcChunkCount scalarSize w + j
              ∧ i * calcChunkCount scalarSize w + j
                < i * calcChunkCount scalarSize w + calcChunkCount scalarSize w then
            storedDigit scalars scalarSize w (calcBucketCount w) i
              (i * calcChunkCount scalarSize w + j - i * calcChunkCount scalarSize w)
          else dat (i * calcChunkCount scalarSize w + j)) * 2 ^ (j * w)
        = ∑ j ∈ Finset.range (calcChunkCount scalarSize w),
            digit scalars scalarSize w (calcBucketCount w) i j * 2 ^ (j * w) := by
      refine Finset.sum_congr rfl (fun j hj => ?_)
      have hj2 := Finset.mem_range.1 hj
      rw [if_pos ⟨by omega, by omega⟩, Nat.add_sub_cancel_left,
        storedDigit_eq_digit scalars scalarSize w i j hw hw16]
    simp only
    rw [hcongr, hsum]
    ring
  · rcases Nat.eq_zero_or_pos (calcChunkCount scalarSize w) with h0 | h0
    · rw [h0]
      constructor
      · intro hc
        have h00 : carryIn scalars scalarSize w (calcBucketCount w) i 0 = 0 := rfl
        omega
      · intro hc
        omega
    · obtain ⟨k, hk⟩ : ∃ k, calcChunkCount scalarSize w = k + 1 :=
        ⟨calcChunkCount scalarSize w - 1, by omega⟩
      rw [hk, carryIn_succ, Nat.add_sub_cancel]
      by_cases hge : rawValue scalars scalarSize w (calcBucketCount w) i k
          ≥ (calcBucketCount w : Int)
      · rw [if_pos hge]
        exact ⟨fun _ => ⟨by omega, hge⟩, fun _ => rfl⟩
      · rw [if_neg hge]
        exact ⟨fun hc => absurd hc (by decide), fun hc => absurd hc.2 hge⟩

/-- Witness of C18 (amended): the 8-bit scalar `255` with `w = 4`. -/
theorem digit_sum_with_carry_witness :
    1 ≤ 4 ∧ 4 ≤ 16 ∧ 0 * calcChunkCount 8 4 + calcChunkCount 8 4 ≤ 4
      ∧ ∃ sl c, (List.range (calcChunkCount 8 4)).foldlM
            (sliceStep (twoScalars 255) 8 4 (calcChunkCount 8 4) (calcBucketCount 4) 0)
            (⟨4, fun _ => 0⟩, 0) = some (sl, c)
        ∧ (c = 0 ∨ c = 1)
        ∧ ∑ j ∈ Finset.range (calcChunkCount 8 4),
              sl.data (0 * calcChunkCount 8 4 + j) * 2 ^ (j * 4)
            + c * 2 ^ (calcChunkCount 8 4 * 4)
          = ((twoScalars 255 0 % 2 ^ 8 : Nat) : Int) := by
  obtain ⟨sl, c, h1, h2, h3, _⟩ :=
    digit_sum_with_carry (twoScalars 255) 8 4 0 4 (fun _ => 0) (by decide) (by decide)
      (by decide)
  exact ⟨by decide, by decide, by decide, sl, c, h1, h2, h3⟩

/-- C19 (per-chunk result): for a chunk `j` whose digit column lies inside the digit matrix
and has entries in `[-nBuckets, nBuckets]`, and a worker slot inside the bucket matrix, the
chunk result `t` that the per-chunk body (reset, accumulation, reduction) produces for
`chunks[j]` is `Σ_{i<n} digit(i,j) · bases[i]`. -/
theorem chunk_result_eq_digit_sum (bases : Nat → G) (slicedScalars : Arr Int)
    (nChunks nBuckets nPoints numThread j : Nat) (bucketMatrix : Arr G) (h1 : 1 ≤ nBuckets)
    (hslot : numThread * nBuckets + nBuckets ≤ bucketMatrix.size)
    (hd : ∀ i < nPoints, i * nChunks + j < slicedScalars.size
      ∧ -(nBuckets : Int) ≤ slicedScalars.data (i * nChunks + j)
      ∧ slicedScalars.data (i * nChunks + j) ≤ (nBuckets : Int)) :
    (chunkBody bases slicedScalars nChunks nBuckets nPoints numThread j bucketMatrix).map
        Prod.snd
      = some (∑ i ∈ Finset.range nPoints, slicedScalars.data (i * nChunks + j) • bases i) := by
  obtain ⟨dat, hbody⟩ := chunkBody_eq bases slicedScalars nChunks nBuckets nPoints numThread j
    bucketMatrix h1 hslot
    (by
      intro i hi
      have hi2 := hd i (List.mem_range.1 hi)
      exact ⟨hi2.1, fun h => by omega, fun h => by omega⟩)
  rw [hbody, Option.map_some']
  exact congrArg some (chunkSum_eq bases _ nBuckets nPoints (fun i hi => (hd i hi).2))

/-- Witness of C19: three points with digits `2, -2, 1` and `nBuckets = 2` over the group
of integers. -/
theorem chunk_result_eq_digit_sum_witness :
    1 ≤ 2 ∧ 0 * 2 + 2 ≤ (Arr.mk 2 (fun _ => (9 : Int))).size
      ∧ (∀ i < 3, i * 1 + 0 < (Arr.mk 3 (fun p => if p = 0 then (2 : Int) else if p = 1 then -2
            else 1)).size
          ∧ -((2 : Nat) : Int)
            ≤ (Arr.mk 3 (fun p => if p = 0 then (2 : Int) else if p = 1 then -2 else 1)).data
              (i * 1 + 0)
          ∧ (Arr.mk 3 (fun p => if p = 0 then (2 : Int) else if p = 1 then -2 else 1)).data
              (i * 1 + 0) ≤ ((2 : Nat) : Int))
      ∧ (chunkBody (fun i => (i : Int) + 1)
            (Arr.mk 3 (fun p => if p = 0 then (2 : Int) else if p = 1 then -2 else 1))
            1 2 3 0 0 (Arr.mk 2 (fun _ => (9 : Int)))).map Prod.snd
        = some (∑ i ∈ Finset.range 3,
            (Arr.mk 3 (fun p => if p = 0 then (2 : Int) else if p = 1 then -2 else 1)).data
              (i * 1 + 0) • ((i : Int) + 1)) :=
  ⟨by decide, by decide, by decide,
    chunk_result_eq_digit_sum (fun i => (i : Int) + 1)
      (Arr.mk 3 (fun p => if p = 0 then (2 : Int) else if p = 1 then -2 else 1))
      1 2 3 0 0 (Arr.mk 2 (fun _ => (9 : Int))) (by decide) (by decide) (by decide)⟩

/-- C20 (lossless digit storage): for every window width `1 ≤ w ≤ 16` and every scalar,
each digit computed by the slicer lies in `[-2^15, 2^15 - 1]`, the slicing loop succeeds,
and the accumulator's load of `slicedScalars[i*nChunks + j]` returns that same integer; for
`w = 17` the 17-bit scalar `32768` has digit `32768`, which is stored as `-32768`. -/
theorem digit_storage_lossless :
    (∀ (scalars : Nat → Nat) (scalarSize w nPoints : Nat) (heap : Nat → Int),
        1 ≤ w → w ≤ 16 →
        ∃ sl, sliceScalars scalars scalarSize w (calcChunkCount scalarSize w)
              (calcBucketCount w) nPoints ⟨calcChunkCount scalarSize w * nPoints, heap⟩
            = some sl
          ∧ ∀ i < nPoints, ∀ j < calcChunkCount scalarSize w,
              -32768 ≤ digit scalars scalarSize w (calcBucketCount w) i j
              ∧ digit scalars scalarSize w (calcBucketCount w) i j ≤ 32767
              ∧ toInt16 (digit scalars scalarSize w (calcBucketCount w) i j)
                = digit scalars scalarSize w (calcBucketCount w) i j
              ∧ sl.load (i * calcChunkCount scalarSize w + j)
                = some (digit scalars scalarSize w (calcBucketCount w) i j))
      ∧ (digit (twoScalars 32768) 17 17 (calcBucketCount 17) 0 0 = 32768
        ∧ (sliceScalars (twoScalars 32768) 17 17 (calcChunkCount 17 17) (calcBucketCount 17) 2
            ⟨calcChunkCount 17 17 * 2, fun _ => 0⟩).bind (fun sl => sl.load 0)
          = some (-32768)) := by
  refine ⟨?_, by decide⟩
  intro scalars scalarSize w nPoints heap hw hw16
  obtain ⟨sl, hsl, hsize, hent⟩ := sliceScalars_entries scalars scalarSize w
    (calcChunkCount scalarSize w) (calcBucketCount w) nPoints heap
  refine ⟨sl, hsl, fun i hi j hj => ?_⟩
  have hd := digit_range scalars scalarSize w i j hw
  have hb := calcBucketCount_le w hw16
  have hst := storedDigit_eq_digit scalars scalarSize w i j hw hw16
  refine ⟨by omega, by omega, by unfold toInt16; omega, ?_⟩
  have hlt : i * calcChunkCount scalarSize w + j < sl.size := by
    rw [hsize]
    have : (i + 1) * calcChunkCount scalarSize w ≤ nPoints * calcChunkCount scalarSize w :=
      Nat.mul_le_mul_right _ hi
    rw [Nat.succ_mul] at this
    rw [Nat.mul_comm (calcChunkCount scalarSize w) nPoints]
    omega
  rw [Arr.load_of_lt sl hlt, hent i hi j hj, hst]

/-- Witness of C20: two 8-bit scalars with `w = 4`. -/
theorem digit_storage_lossless_witness :
    1 ≤ 4 ∧ 4 ≤ 16
      ∧ ∃ sl, sliceScalars (twoScalars 255) 8 4 (calcChunkCount 8 4) (calcBucketCount 4) 2
            ⟨calcChunkCount 8 4 * 2, fun _ => 0⟩ = some sl
          ∧ ∀ i < 2, ∀ j < calcChunkCount 8 4,
              -32768 ≤ digit (twoScalars 255) 8 4 (calcBucketCount 4) i j
              ∧ digit (twoScalars 255) 8 4 (calcBucketCount 4) i j ≤ 32767
              ∧ toInt16 (digit (twoScalars 255) 8 4 (calcBucketCount 4) i j)
                = digit (twoScalars 255) 8 4 (calcBucketCount 4) i j
              ∧ sl.load (i * calcChunkCount 8 4 + j)
                = some (digit (twoScalars 255) 8 4 (calcBucketCount 4) i j) :=
  ⟨by decide, by decide,
    digit_storage_lossless.1 (twoScalars 255) 8 4 2 (fun _ => 0) (by decide) (by decide)⟩

end ClaimsDigits

end MSM
